import Mathlib

/-!
# json-rpc-cache: a shallow embedding of `include/cache.hpp`

The development follows the source file top to bottom.

* `Value` is the tree held by a `rapidjson::Document`.
* rapidjson and the C++ standard library are external to the repository.  Their
  operations are embedded from their documented behaviour, `std::sort` from the
  implementation in libstdc++:
  - `Document::Parse` is a parameter `P : Parser` of every definition that parses
    (`some t` for syntactically valid text with tree `t`, `none` when rapidjson reports a
    parse error); `parse_json` is a reference parser used at concrete inputs;
  - `Writer` (the compact serializer) is `write` / `to_string`;
  - `std::sort` is `std_sort`, written after `std::__sort` of libstdc++ (introsort with heap
    sort as its fallback, then one insertion sort): the standard leaves open where
    elements go that the comparator does not tell apart, and the text `normalize_json`
    returns depends on it;
  - `std::unordered_map` is an association list driven by `operator==`.
* Strings are Lean strings (sequences of code points).  The source compares UTF-8 bytes;
  on well-formed UTF-8 the two orders coincide.
* A `std::string_view` is its characters together with the storage it points into;
  storage that does not outlive the call that returns the view leaves it dangling.
-/

namespace caching

/-! ## The document tree -/

/-- Characters that `Writer::Double` can emit: digits, sign, point and exponent mark. -/
def isDoubleChar (c : Char) : Bool :=
  c.isDigit || c == '-' || c == '.' || c == 'e'

/-- Shape of the text `Writer::Double` emits for a finite double: made of
number characters and containing a point or an exponent mark (`1.0`, `-0.5`, `1e21`). -/
def isDoubleText (s : List Char) : Bool :=
  s.all isDoubleChar && s.any (fun c => c == '.' || c == 'e')

/-- A finite double.  Floating point arithmetic is not embedded: a double is identified
with the text `Writer::Double` prints for it (the printer round-trips, so this loses
nothing). -/
structure DoubleText where
  text : String
  shape : isDoubleText text.data = true

/-- The tree of a `rapidjson::Value`.  An object is its member list in document order
(rapidjson keeps members, duplicates included, in an array). -/
inductive Value where
  | null
  | bool (b : Bool)
  | int (i : Int)
  | double (d : DoubleText)
  | string (s : String)
  | array (elems : List Value)
  | object (members : List (String × Value))

/-- Reading of `Value::IsObject`. -/
def Value.IsObject : Value → Bool
  | .object _ => true
  | _ => false

/-- A `Value::Member`: name and value. -/
abbrev Member := String × Value

/-- Result of `Document::Parse` on a NUL-terminated text: the tree, or `none` for a
parse error. -/
abbrev Parser := String → Option Value

/-- Ways a call can end without a result. -/
inductive Failure where
  /-- Refusal by `RAPIDJSON_ASSERT(IsObject())` inside `MemberBegin`. -/
  | assertion
  deriving DecidableEq, Repr

/-- The characters of `s` before its first NUL: what a `const char*` reader
(`Parse(const Ch*)`, `std::string_view(const char*)`) sees of a buffer holding `s`. -/
def c_str (s : String) : String :=
  ⟨s.data.takeWhile (fun c => c != Char.ofNat 0)⟩

namespace detail

/-! ## `hashable_params`, `request`, `operator==` -/

abbrev parameters := Value
abbrev response := String

structure hashable_params where
  params : parameters
  json : String

structure request where
  method : String
  h_params : hashable_params

/-- Embedding of `operator==(request const&, request const&)`: methods and json texts
are compared, the parsed document is not. -/
def request_eq (lhs rhs : request) : Bool :=
  lhs.method == rhs.method && lhs.h_params.json == rhs.h_params.json

/-! ## `json_key_cmp`, `sort_recursively` -/

/-- Embedding of `json_key_cmp`: both names are read through `GetString()` as C strings
and compared as `std::string_view`. -/
def json_key_cmp (lhs rhs : Member) : Bool :=
  decide ((c_str lhs.1).data < (c_str rhs.1).data)

/-- Stand-in for what lies outside a range; `std::sort` never reads there. -/
def no_member : Member := ("", Value.null)

/-- The element at a position of the range. -/
def at_index (l : List Member) (i : Nat) : Member :=
  l.getD i no_member

/-- Embedding of `std::iter_swap` on two positions of the range. -/
def iter_swap (l : List Member) (i j : Nat) : List Member :=
  if i < l.length ∧ j < l.length then (l.set i (at_index l j)).set j (at_index l i) else l

/-- Embedding of `std::__move_median_to_first(result, a, b, c, comp)`. -/
def move_median_to_first (comp : Member → Member → Bool) (l : List Member)
    (result a b c : Nat) : List Member :=
  if comp (at_index l a) (at_index l b) then
    if comp (at_index l b) (at_index l c) then iter_swap l result b
    else if comp (at_index l a) (at_index l c) then iter_swap l result c
    else iter_swap l result a
  else if comp (at_index l a) (at_index l c) then iter_swap l result a
  else if comp (at_index l b) (at_index l c) then iter_swap l result c
  else iter_swap l result b

/-- The loop `while (comp(first, pivot)) ++first` of `__unguarded_partition`: the position
where it stops.  The fuel bounds the steps by the length of the range. -/
def scan_up (comp : Member → Member → Bool) (l : List Member) (pivot : Nat) :
    Nat → Nat → Nat
  | 0, first => first
  | fuel + 1, first =>
    if comp (at_index l first) (at_index l pivot) then scan_up comp l pivot fuel (first + 1)
    else first

/-- The loop `while (comp(pivot, last)) --last` of `__unguarded_partition`: the position
where it stops. -/
def scan_down (comp : Member → Member → Bool) (l : List Member) (pivot : Nat) : Nat → Nat
  | 0 => 0
  | last + 1 =>
    if comp (at_index l pivot) (at_index l (last + 1)) then scan_down comp l pivot last
    else last + 1

/-- Embedding of `std::__unguarded_partition(first, last, pivot, comp)`: the range after
the exchanges and the cut.  Every round moves `first` up, so a fuel of the length of
the range is not used up. -/
def unguarded_partition (comp : Member → Member → Bool) (pivot : Nat) :
    Nat → List Member → Nat → Nat → List Member × Nat
  | 0, l, first, _ => (l, first)
  | fuel + 1, l, first, last =>
    let first1 := scan_up comp l pivot l.length first
    let last1 := scan_down comp l pivot (last - 1)
    if first1 < last1 then
      unguarded_partition comp pivot fuel (iter_swap l first1 last1) (first1 + 1) last1
    else (l, first1)

/-- Embedding of `std::__unguarded_partition_pivot(first, last, comp)` on a range given as
a list (`first` is position 0, `last` the length). -/
def unguarded_partition_pivot (comp : Member → Member → Bool) (l : List Member) :
    List Member × Nat :=
  let mid := l.length / 2
  let l1 := move_median_to_first comp l 0 1 mid (l.length - 1)
  unguarded_partition comp 0 l1.length l1 1 l1.length

/-- Embedding of `std::__push_heap(first, holeIndex, topIndex, value, comp)`. -/
def push_heap (comp : Member → Member → Bool) (value : Member) (topIndex : Nat) :
    Nat → List Member → Nat → List Member
  | 0, l, holeIndex => l.set holeIndex value
  | fuel + 1, l, holeIndex =>
    let parent := (holeIndex - 1) / 2
    if holeIndex > topIndex ∧ comp (at_index l parent) value = true then
      push_heap comp value topIndex fuel (l.set holeIndex (at_index l parent)) parent
    else l.set holeIndex value

/-- The first loop of `std::__adjust_heap`: the hole moves down to the larger child
while it has two children. -/
def sift_hole (comp : Member → Member → Bool) (len : Nat) :
    Nat → List Member → Nat → List Member × Nat
  | 0, l, hole => (l, hole)
  | fuel + 1, l, hole =>
    if hole < (len - 1) / 2 then
      let secondChild := 2 * (hole + 1)
      let child :=
        if comp (at_index l secondChild) (at_index l (secondChild - 1)) then secondChild - 1
        else secondChild
      sift_hole comp len fuel (l.set hole (at_index l child)) child
    else (l, hole)

/-- Embedding of `std::__adjust_heap(first, holeIndex, len, value, comp)`. -/
def adjust_heap (comp : Member → Member → Bool) (l : List Member) (holeIndex len : Nat)
    (value : Member) : List Member :=
  let r := sift_hole comp len len l holeIndex
  let r2 : List Member × Nat :=
    if len % 2 = 0 ∧ r.2 = (len - 2) / 2 then
      (r.1.set r.2 (at_index r.1 (2 * (r.2 + 1) - 1)), 2 * (r.2 + 1) - 1)
    else r
  push_heap comp value holeIndex len r2.1 r2.2

/-- Embedding of `std::__pop_heap(first, last, result, comp)` with `first` at position 0:
`last` is the length of the heap, `result` the position that receives its top. -/
def pop_heap (comp : Member → Member → Bool) (l : List Member) (last result : Nat) :
    List Member :=
  let value := at_index l result
  adjust_heap comp (l.set result (at_index l 0)) 0 last value

/-- The loop of `std::__make_heap`, from `parent` down to position 0. -/
def make_heap_loop (comp : Member → Member → Bool) (len : Nat) :
    Nat → List Member → List Member
  | 0, l => adjust_heap comp l 0 len (at_index l 0)
  | parent + 1, l =>
    make_heap_loop comp len parent (adjust_heap comp l (parent + 1) len (at_index l (parent + 1)))

/-- Embedding of `std::__make_heap(first, last, comp)` on the whole list. -/
def make_heap (comp : Member → Member → Bool) (l : List Member) : List Member :=
  if l.length < 2 then l else make_heap_loop comp l.length ((l.length - 2) / 2) l

/-- Embedding of `std::__sort_heap(first, last, comp)`; the argument counts `last` down. -/
def sort_heap (comp : Member → Member → Bool) : Nat → List Member → List Member
  | 0, l => l
  | last + 1, l => if last + 1 > 1 then sort_heap comp last (pop_heap comp l last last) else l

/-- Embedding of `std::__partial_sort(first, last, last, comp)`, the heap sort that
`__introsort_loop` falls back to: `__heap_select` is `__make_heap` here, its loop over the
empty range `[middle, last)` does nothing. -/
def partial_sort (comp : Member → Member → Bool) (l : List Member) : List Member :=
  sort_heap comp l.length (make_heap comp l)

/-- Embedding of `std::__introsort_loop(first, last, depth_limit, comp)` on a range given as
a list: while the range has more than 16 elements it is partitioned, the part from the
cut on is handled by the nested call and the part before the cut by the next round. -/
def introsort_loop (comp : Member → Member → Bool) : Nat → List Member → List Member
  | 0, l => if l.length > 16 then partial_sort comp l else l
  | depth_limit + 1, l =>
    if l.length > 16 then
      let r := unguarded_partition_pivot comp l
      introsort_loop comp depth_limit (r.1.take r.2)
        ++ introsort_loop comp depth_limit (r.1.drop r.2)
    else l

/-- Embedding of `std::__unguarded_linear_insert`: `val` goes behind the last element of
the sorted part that it is not less than; the elements it is less than move up.  The
source does not test for the front of the range: where it is called an element that
`val` is not less than lies before it.  Here the scan ends at the front at the
latest. -/
def unguarded_linear_insert (comp : Member → Member → Bool) (val : Member)
    (sorted : List Member) : List Member :=
  (sorted.reverse.dropWhile (fun e => comp val e)).reverse
    ++ val :: (sorted.reverse.takeWhile (fun e => comp val e)).reverse

/-- One round of the loop of `std::__insertion_sort`: an element less than the first one
is moved to the front, any other is inserted by `__unguarded_linear_insert`. -/
def insertion_step (comp : Member → Member → Bool) (sorted : List Member) (val : Member) :
    List Member :=
  match sorted with
  | [] => [val]
  | first :: _ =>
    if comp val first then val :: sorted else unguarded_linear_insert comp val sorted

/-- Embedding of `std::__insertion_sort(first, last, comp)`. -/
def insertion_sort (comp : Member → Member → Bool) (l : List Member) : List Member :=
  l.foldl (insertion_step comp) []

/-- Embedding of `std::__unguarded_insertion_sort(first, last, comp)`: the elements of
`rest` are inserted into the sorted part before them. -/
def unguarded_insertion_sort (comp : Member → Member → Bool) (sorted rest : List Member) :
    List Member :=
  rest.foldl (fun acc val => unguarded_linear_insert comp val acc) sorted

/-- Embedding of `std::__final_insertion_sort(first, last, comp)`. -/
def final_insertion_sort (comp : Member → Member → Bool) (l : List Member) : List Member :=
  if l.length > 16 then
    unguarded_insertion_sort comp (insertion_sort comp (l.take 16)) (l.drop 16)
  else insertion_sort comp l

/-- Halving until the number is below 2, counting the steps. -/
def lg_loop : Nat → Nat → Nat
  | 0, _ => 0
  | fuel + 1, n => if n < 2 then 0 else lg_loop fuel (n / 2) + 1

/-- Embedding of `std::__lg`: the position of the highest set bit of a positive number. -/
def lg (n : Nat) : Nat :=
  lg_loop n n

/-- Embedding of `std::sort(first, last, comp)` as libstdc++ implements it (`std::__sort`):
introsort down to ranges of 16 elements, then one insertion sort over the whole
range.  The order it gives to elements that `comp` does not tell apart is the one this
algorithm produces; it is not the order of the input in general. -/
def std_sort (comp : Member → Member → Bool) (l : List Member) : List Member :=
  match l with
  | [] => []
  | _ :: _ => final_insertion_sort comp (introsort_loop comp (lg l.length * 2) l)

mutual
/-- One iteration of the loop in `sort_recursively`:
`if (it->value.IsObject()) sort_recursively(it->value.GetObject())`.
The nested call sorts the members of the nested object; any other value is left alone. -/
def sort_member_value : Value → Value
  | .object ms => .object (std_sort json_key_cmp (sort_loop ms))
  | v => v
/-- The loop of `sort_recursively` over `MemberBegin() .. MemberEnd()`. -/
def sort_loop : List Member → List Member
  | [] => []
  | (k, v) :: rest => (k, sort_member_value v) :: sort_loop rest
end

/-- Embedding of `sort_recursively` at `T = rapidjson::Document&`: `MemberBegin()` asserts
`IsObject()`; on an object the loop runs and then the members are sorted by key. -/
def sort_recursively (json_object : Value) : Except Failure Value :=
  match json_object with
  | .object ms => .ok (.object (std_sort json_key_cmp (sort_loop ms)))
  | _ => .error Failure.assertion

/-! ## `to_string` (rapidjson `Writer`) -/

/-- The table `hexDigits` of `Writer::WriteString`. -/
def hexDigit (n : Nat) : Char :=
  if n < 10 then Char.ofNat (48 + n) else Char.ofNat (55 + n)

/-- What `Writer::WriteString` emits for one character: `"` and `\` get a backslash,
control characters below 0x20 become `\b \t \n \f \r` or `\u00XY`, all else is copied. -/
def escape_char (c : Char) : List Char :=
  if c = '"' then ['\\', '"']
  else if c = '\\' then ['\\', '\\']
  else if c.toNat = 8 then ['\\', 'b']
  else if c.toNat = 9 then ['\\', 't']
  else if c.toNat = 10 then ['\\', 'n']
  else if c.toNat = 12 then ['\\', 'f']
  else if c.toNat = 13 then ['\\', 'r']
  else if c.toNat < 32 then
    ['\\', 'u', '0', '0', hexDigit (c.toNat / 16), hexDigit (c.toNat % 16)]
  else [c]

/-- Body of a string literal as written by `Writer::WriteString` (without the quotes). -/
def escape : List Char → List Char
  | [] => []
  | c :: cs => escape_char c ++ escape cs

/-- Quoted string as written by `Writer::String` / `Writer::Key`. -/
def write_string (s : String) : List Char :=
  '"' :: (escape s.data ++ ['"'])

/-- Decimal digits of a natural number, most significant first (`Writer::Uint64`). -/
def write_nat (n : Nat) : List Char :=
  Nat.toDigits 10 n

/-- Decimal text of an integer (`Writer::Int64`). -/
def write_int : Int → List Char
  | .ofNat n => write_nat n
  | .negSucc n => '-' :: write_nat (n + 1)

mutual
/-- Embedding of `Value::Accept(Writer&)`: the compact text of a tree. -/
def write : Value → List Char
  | .null => "null".data
  | .bool b => if b then "true".data else "false".data
  | .int i => write_int i
  | .double d => d.text.data
  | .string s => write_string s
  | .array es => '[' :: (write_elems es ++ [']'])
  | .object ms => Char.ofNat 123 :: (write_members ms ++ [Char.ofNat 125])
/-- Array elements separated by commas. -/
def write_elems : List Value → List Char
  | [] => []
  | v :: rest =>
    match rest with
    | [] => write v
    | _ :: _ => write v ++ ',' :: write_elems rest
/-- Object members, each a quoted name, a colon and the value, separated by commas. -/
def write_members : List Member → List Char
  | [] => []
  | (k, v) :: rest =>
    match rest with
    | [] => write_string k ++ ':' :: write v
    | _ :: _ => write_string k ++ ':' :: write v ++ ',' :: write_members rest
end

/-- Embedding of `to_string(rapidjson::Document const&)`. -/
def to_string (doc : Value) : String :=
  ⟨write doc⟩

/-! ## `Document::Parse` and `normalize_json` -/

/-- State of a default-constructed `rapidjson::Document` after `Parse(text.data())`:
the parsed tree, or still the null value when parsing failed (rapidjson only records
the error and leaves the document as it was). -/
def Parse (P : Parser) (text : String) : Value :=
  (P (c_str text)).getD Value.null

/-- Embedding of `normalize_json(std::string_view)`: parse, `sort_recursively`, write. -/
def normalize_json (P : Parser) (json : String) : Except Failure String :=
  match sort_recursively (Parse P json) with
  | .ok doc => .ok (to_string doc)
  | .error e => .error e

end detail

open detail

/-! ## `class cache` -/

/-- The `std::unordered_map<request, response, request_hash>`: its entries.  Keys are
told apart by `operator==` alone; the hash only places entries in buckets, and no
operation of `cache` observes the placement. -/
abbrev cache_map := List (request × response)

/-- Embedding of `unordered_map::contains`. -/
def map_contains : cache_map → request → Bool
  | [], _ => false
  | e :: rest, k => if request_eq e.1 k then true else map_contains rest k

/-- Embedding of `unordered_map::at`; `none` stands for `std::out_of_range`. -/
def map_at : cache_map → request → Option response
  | [], _ => none
  | e :: rest, k => if request_eq e.1 k then some e.2 else map_at rest k

/-- Embedding of `m[k] = v`: the entry whose key equals `k` gets the value `v` (its stored
key object stays), and when there is none a new entry is made. -/
def map_assign : cache_map → request → response → cache_map
  | [], k, v => [(k, v)]
  | e :: rest, k, v =>
    if request_eq e.1 k then (e.1, v) :: rest else e :: map_assign rest k v

/-- State of a `caching::cache` object. -/
structure cache where
  cache_ : cache_map

/-- A `factory`; `Except.error` stands for an exception thrown by the callable. -/
abbrev factory (ε : Type) := String → String → Except ε String

/-- The object that holds the characters a `std::string_view` points into, as seen from
the function that returns the view. -/
inductive Storage where
  /-- Storage owned by the caller, alive after the call. -/
  | argument
  /-- A temporary `std::string` of the returning full-expression, destroyed at its end. -/
  | temporary
  /-- A local variable of the returning function, destroyed when it returns. -/
  | local_variable
  deriving DecidableEq, Repr

/-- Whether the storage is still alive once the function has returned. -/
def Storage.outlives_call : Storage → Bool
  | .argument => true
  | .temporary => false
  | .local_variable => false

/-- A `std::string_view`: the characters it designates while its storage is alive, and
that storage.  Reading a view whose storage is gone is undefined. -/
structure string_view where
  chars : String
  storage : Storage
  deriving DecidableEq, Repr

/-- What a call of `lookup_or_insert` does: the view returned or the exception that
leaves the call, the object state afterwards, and the invocations of the factory in
order, each with the arguments it received. -/
structure Outcome (ε : Type) where
  returned : Except ε string_view
  after : cache
  calls : List (String × String)

namespace cache

/-- Embedding of `cache::make_request`: the parameters are parsed and written back; the
document is not passed through `normalize_json`. -/
def make_request (P : Parser) (method params : String) : request :=
  let doc := Parse P params
  { method := method, h_params := { params := doc, json := to_string doc } }

/-- Embedding of `cache::insert`: `cache_[make_request(method, params)] = value; return value;`
as the returned view (the parameter itself) and the state afterwards (the map holds a
copy of the characters). -/
def insert (P : Parser) (c : cache) (method params : String) (value : string_view) :
    string_view × cache :=
  (value, { cache_ := map_assign c.cache_ (make_request P method params) value.chars })

/-- Embedding of `cache::get_if`. -/
def get_if (c : cache) (req : request) : Option response :=
  if map_contains c.cache_ req then map_at c.cache_ req else none

/-- Embedding of `cache::lookup(method, params)` (a `const` member: no state change). -/
def lookup (P : Parser) (c : cache) (method params : String) : Option response :=
  get_if c (make_request P method params)

/-- Embedding of `cache::lookup(method)`. -/
def lookup_method (P : Parser) (c : cache) (method : String) : Option response :=
  lookup P c method "[]"

/-- Embedding of `cache::lookup_or_insert(method, params, f)`.  The argument
`f(method, params)` is evaluated before `insert` is entered, so an exception from `f`
leaves the call with the map untouched.  On a hit the returned view points into the
local `existing`; on a miss it is the view `insert` received, which points into the
temporary `std::string` that `f` returned. -/
def lookup_or_insert {ε : Type} (P : Parser) (c : cache) (method params : String)
    (f : factory ε) : Outcome ε :=
  match lookup P c method params with
  | some existing =>
    { returned := .ok { chars := existing, storage := Storage.local_variable },
      after := c, calls := [] }
  | none =>
    match f method params with
    | .ok value =>
      let r := insert P c method params { chars := value, storage := Storage.temporary }
      { returned := .ok r.1, after := r.2, calls := [(method, params)] }
    | .error e => { returned := .error e, after := c, calls := [(method, params)] }

/-- Embedding of `cache::lookup_or_insert(method, f)`. -/
def lookup_or_insert_method {ε : Type} (P : Parser) (c : cache) (method : String)
    (f : factory ε) : Outcome ε :=
  lookup_or_insert P c method "[]" f

/-- Embedding of `cache::refresh`: the state after `insert(method, params, value)`, the
view being the one the caller passed. -/
def refresh (P : Parser) (c : cache) (method params value : String) : cache :=
  (insert P c method params { chars := value, storage := Storage.argument }).2

end cache

/-- A freshly constructed `caching::cache`. -/
def cache.empty : cache := { cache_ := [] }

/-! ## Reference parser

`parse_json` follows the grammar rapidjson accepts with its default flags on the
fragment used at concrete inputs below: the three literals, integers in the range of
`int64_t` / `uint64_t`, strings with the escapes of RFC 8259 (code points outside the
surrogate range), arrays and objects, with blanks between tokens.  Numbers with a
fraction or an exponent, integers beyond 64 bits and surrogate escapes are outside the
fragment; the theorems below hold for every `Parser` and use `parse_json` at
concrete texts of the fragment, and where the text written for a tree is read back. -/

/-- Skipping of blanks by `SkipWhitespace`: space, line feed, carriage return, tab. -/
def skip_ws : List Char → List Char
  | [] => []
  | c :: cs => if c = ' ' ∨ c = '\n' ∨ c = '\r' ∨ c = '\t' then skip_ws cs else c :: cs

/-- Value of a hexadecimal digit. -/
def hex_value (c : Char) : Option Nat :=
  if c.isDigit then some (c.toNat - 48)
  else if 65 ≤ c.toNat ∧ c.toNat ≤ 70 then some (c.toNat - 55)
  else if 97 ≤ c.toNat ∧ c.toNat ≤ 102 then some (c.toNat - 87)
  else none

/-- Code point of a four digit escape; surrogates are outside the fragment. -/
def hex4 (a b c d : Char) : Option Char :=
  match hex_value a, hex_value b, hex_value c, hex_value d with
  | some x, some y, some z, some w =>
    let n := ((x * 16 + y) * 16 + z) * 16 + w
    if 55296 ≤ n ∧ n ≤ 57343 then none else some (Char.ofNat n)
  | _, _, _, _ => none

/-- The characters of a string after its opening quote, up to the closing quote, with
escapes decoded; also the text after the closing quote. -/
def parse_string_body : List Char → Option (List Char × List Char)
  | [] => none
  | '"' :: rest => some ([], rest)
  | '\\' :: 'u' :: a :: b :: c :: d :: rest =>
    match hex4 a b c d, parse_string_body rest with
    | some ch, some (s, r) => some (ch :: s, r)
    | _, _ => none
  | '\\' :: e :: rest =>
    let decoded : Option Char :=
      if e = '"' then some '"' else if e = '\\' then some '\\' else if e = '/' then some '/'
      else if e = 'b' then some (Char.ofNat 8) else if e = 'f' then some (Char.ofNat 12)
      else if e = 'n' then some '\n' else if e = 'r' then some '\r'
      else if e = 't' then some '\t' else none
    match decoded, parse_string_body rest with
    | some ch, some (s, r) => some (ch :: s, r)
    | _, _ => none
  | c :: rest =>
    if c.toNat < 32 then none
    else match parse_string_body rest with
      | some (s, r) => some (c :: s, r)
      | none => none

/-- Leading decimal digits of a text, as a number, and the text after them. -/
def parse_digits : Nat → List Char → Nat × List Char
  | acc, [] => (acc, [])
  | acc, c :: cs => if c.isDigit then parse_digits (acc * 10 + (c.toNat - 48)) cs else (acc, c :: cs)

/-- An integer without sign: a single `0`, or a nonzero digit and more digits.  A
following fraction or exponent is outside the fragment. -/
def parse_nat : List Char → Option (Nat × List Char)
  | [] => none
  | c :: cs =>
    if c.isDigit then
      let r := if c = '0' then (0, cs) else parse_digits (c.toNat - 48) cs
      match r.2 with
      | d :: _ => if d = '.' ∨ d = 'e' ∨ d = 'E' then none else some r
      | [] => some r
    else none

mutual
/-- One value at the head of the text (no leading blanks), and the text after it. -/
def parse_value : Nat → List Char → Option (Value × List Char)
  | 0, _ => none
  | fuel + 1, cs =>
    match cs with
    | 'n' :: 'u' :: 'l' :: 'l' :: r => some (Value.null, r)
    | 't' :: 'r' :: 'u' :: 'e' :: r => some (Value.bool true, r)
    | 'f' :: 'a' :: 'l' :: 's' :: 'e' :: r => some (Value.bool false, r)
    | '"' :: r =>
      match parse_string_body r with
      | some (s, r1) => some (Value.string ⟨s⟩, r1)
      | none => none
    | '[' :: r =>
      match skip_ws r with
      | ']' :: r1 => some (Value.array [], r1)
      | r1 =>
        match parse_elems fuel r1 with
        | some (es, r2) => some (Value.array es, r2)
        | none => none
    | '-' :: r =>
      match parse_nat r with
      | some (n, r1) => if n ≤ 2 ^ 63 then some (Value.int (-(n : Int)), r1) else none
      | none => none
    | c :: r =>
      if c = Char.ofNat 123 then
        match skip_ws r with
        | c1 :: r1 =>
          if c1 = Char.ofNat 125 then some (Value.object [], r1)
          else
            match parse_members fuel (c1 :: r1) with
            | some (ms, r2) => some (Value.object ms, r2)
            | none => none
        | [] => none
      else
        match parse_nat (c :: r) with
        | some (n, r1) => if n < 2 ^ 64 then some (Value.int n, r1) else none
        | none => none
    | [] => none
/-- Array elements up to and including the closing bracket. -/
def parse_elems : Nat → List Char → Option (List Value × List Char)
  | 0, _ => none
  | fuel + 1, cs =>
    match parse_value fuel cs with
    | some (v, r) =>
      match skip_ws r with
      | ',' :: r1 =>
        match parse_elems fuel (skip_ws r1) with
        | some (vs, r2) => some (v :: vs, r2)
        | none => none
      | ']' :: r1 => some ([v], r1)
      | _ => none
    | none => none
/-- Object members up to and including the closing brace. -/
def parse_members : Nat → List Char → Option (List Member × List Char)
  | 0, _ => none
  | fuel + 1, cs =>
    match cs with
    | '"' :: r =>
      match parse_string_body r with
      | some (k, r1) =>
        match skip_ws r1 with
        | ':' :: r2 =>
          match parse_value fuel (skip_ws r2) with
          | some (v, r3) =>
            match skip_ws r3 with
            | c :: r4 =>
              if c = ',' then
                match parse_members fuel (skip_ws r4) with
                | some (ms, r5) => some ((⟨k⟩, v) :: ms, r5)
                | none => none
              else if c = Char.ofNat 125 then some ([(⟨k⟩, v)], r4)
              else none
            | [] => none
          | none => none
        | _ => none
      | none => none
    | _ => none
end

/-- Reference for `Document::Parse` with default flags: one value between optional
blanks and nothing after it.  Of any two nested calls at least one consumes a
character, so a fuel of twice the length of the text and two more is never used
up. -/
def parse_json : Parser := fun text =>
  match parse_value (2 * text.data.length + 2) (skip_ws text.data) with
  | some (v, r) => if skip_ws r = [] then some v else none
  | none => none


/-! ## Notions used to state the properties -/

/-- Trees equal up to the order of members inside objects, at any depth: the least
reflexive and transitive relation that allows exchanging two neighbouring members of an
object, inside the value of a member and inside an element of an array. -/
inductive SameUpToOrder : Value → Value → Prop
  | refl (v : Value) : SameUpToOrder v v
  | trans {a b c : Value} : SameUpToOrder a b → SameUpToOrder b c → SameUpToOrder a c
  | swap (pre post : List Member) (a b : Member) :
    SameUpToOrder (.object (pre ++ a :: b :: post)) (.object (pre ++ b :: a :: post))
  | member (pre post : List Member) (k : String) {v w : Value} :
    SameUpToOrder v w →
    SameUpToOrder (.object (pre ++ (k, v) :: post)) (.object (pre ++ (k, w) :: post))
  | elem (pre post : List Value) {v w : Value} :
    SameUpToOrder v w →
    SameUpToOrder (.array (pre ++ v :: post)) (.array (pre ++ w :: post))

/-- The same relation without the rule for array elements: members may be exchanged in
the top-level object and in objects reached from it through member values only; below
an array nothing moves. -/
inductive SameUpToOrderOutsideArrays : Value → Value → Prop
  | refl (v : Value) : SameUpToOrderOutsideArrays v v
  | trans {a b c : Value} :
    SameUpToOrderOutsideArrays a b → SameUpToOrderOutsideArrays b c →
    SameUpToOrderOutsideArrays a c
  | swap (pre post : List Member) (a b : Member) :
    SameUpToOrderOutsideArrays (.object (pre ++ a :: b :: post))
      (.object (pre ++ b :: a :: post))
  | member (pre post : List Member) (k : String) {v w : Value} :
    SameUpToOrderOutsideArrays v w →
    SameUpToOrderOutsideArrays (.object (pre ++ (k, v) :: post))
      (.object (pre ++ (k, w) :: post))

mutual
/-- Every object reached from the value through member values only (not through array
elements) has member names that are pairwise different as C strings, so that
`json_key_cmp` orders any two of its members. -/
def distinct_keys : Value → Bool
  | .object ms => decide ((ms.map (fun m => c_str m.1)).Nodup) && distinct_keys_members ms
  | _ => true
/-- The values of all members satisfy `distinct_keys`. -/
def distinct_keys_members : List Member → Bool
  | [] => true
  | (_, v) :: rest => distinct_keys v && distinct_keys_members rest
end

/-- The factory `mockup::factory::fixed_value` of the test suite. -/
def fixed_value (value : String) : factory Unit := fun _ _ => .ok value

/-- A factory that throws. -/
def throwing (e : String) : factory String := fun _ _ => .error e

/-! ## Reading written text back (used for injectivity of the writer) -/

/-- Reading back what `escape_char` wrote: the character at the head of an escaped
text, and the text after it. -/
def unescape_char : List Char → Option (Char × List Char)
  | [] => none
  | c :: rest =>
    if c = '\\' then
      match rest with
      | [] => none
      | e :: rest2 =>
        if e = '"' then some ('"', rest2)
        else if e = '\\' then some ('\\', rest2)
        else if e = 'b' then some (Char.ofNat 8, rest2)
        else if e = 't' then some (Char.ofNat 9, rest2)
        else if e = 'n' then some (Char.ofNat 10, rest2)
        else if e = 'f' then some (Char.ofNat 12, rest2)
        else if e = 'r' then some (Char.ofNat 13, rest2)
        else
          match rest2 with
          | _ :: _ :: h1 :: h2 :: rest3 =>
            some (Char.ofNat ((hex_value h1).getD 0 * 16 + (hex_value h2).getD 0), rest3)
          | _ => none
    else some (c, rest)

/-- A text that may follow a complete value inside a document: nothing, or a comma, a
closing bracket or a closing brace first. -/
def at_delimiter : List Char → Bool
  | [] => true
  | c :: _ => c == ',' || c == ']' || c == Char.ofNat 125

/-- Kind of value announced by the first character of its text. -/
def head_class (c : Char) : Nat :=
  if c = 'n' then 0 else if c = 't' then 1 else if c = 'f' then 2 else if c = '"' then 3
  else if c = '[' then 4 else if c = Char.ofNat 123 then 5
  else if isDoubleChar c then 6 else 7

/-- Kind of a value, numbered as `head_class` numbers first characters. -/
def Value.tag : Value → Nat
  | .null => 0
  | .bool true => 1
  | .bool false => 2
  | .string _ => 3
  | .array _ => 4
  | .object _ => 5
  | .int _ => 6
  | .double _ => 6

/-! ## `request_hash` -/

namespace detail

/-- Width of `size_t` on the 64-bit targets the repository builds for. -/
def size_t_bits : Nat := 64

/-- Embedding of `request_hash::operator()`.  `std::hash<std::string>` is a parameter
`H` (its values are taken as `size_t`); the shift and the exclusive or are those of
unsigned 64-bit arithmetic. -/
def request_hash (H : String → Nat) (rq : request) : Nat :=
  let method_hash := H rq.method % 2 ^ size_t_bits
  let params_hash := H rq.h_params.json % 2 ^ size_t_bits
  method_hash ^^^ ((params_hash <<< 1) % 2 ^ size_t_bits)

end detail

/-! ## Further notions used to state the properties -/

mutual
/-- The value contains no array: it is a scalar, or an object whose member values are
scalars or again such objects. -/
def no_arrays : Value → Bool
  | .array _ => false
  | .object ms => no_arrays_members ms
  | _ => true
/-- No member value contains an array. -/
def no_arrays_members : List Member → Bool
  | [] => true
  | (_, v) :: rest => no_arrays v && no_arrays_members rest
end

mutual
/-- In every object of the tree, at every depth and also below arrays, the member names
appear in ascending lexicographic order of their characters. -/
def keys_ascending : Value → Bool
  | .object ms =>
    decide (ms.Pairwise (fun a b => a.1.data ≤ b.1.data)) && keys_ascending_members ms
  | .array es => keys_ascending_elems es
  | _ => true
/-- All member values satisfy `keys_ascending`. -/
def keys_ascending_members : List Member → Bool
  | [] => true
  | (_, v) :: rest => keys_ascending v && keys_ascending_members rest
/-- All elements satisfy `keys_ascending`. -/
def keys_ascending_elems : List Value → Bool
  | [] => true
  | v :: rest => keys_ascending v && keys_ascending_elems rest
end

mutual
/-- In the top-level object and in every object reached from it through member values
only, the member names, read as C strings, appear in ascending lexicographic order. -/
def keys_ascending_outside_arrays : Value → Bool
  | .object ms =>
    decide (ms.Pairwise (fun a b => (c_str a.1).data ≤ (c_str b.1).data))
      && keys_ascending_outside_arrays_members ms
  | _ => true
/-- All member values satisfy `keys_ascending_outside_arrays`. -/
def keys_ascending_outside_arrays_members : List Member → Bool
  | [] => true
  | (_, v) :: rest =>
    keys_ascending_outside_arrays v && keys_ascending_outside_arrays_members rest
end

/-- A call of one of the public operations of `cache`. -/
inductive Op (ε : Type) where
  | lookup (method params : String)
  | lookup_or_insert (method params : String) (f : factory ε)
  | refresh (method params value : String)

/-- State of the cache after the call. -/
def Op.apply {ε : Type} (P : Parser) (c : cache) : Op ε → cache
  | .lookup _ _ => c
  | .lookup_or_insert method params f => (cache.lookup_or_insert P c method params f).after
  | .refresh method params value => cache.refresh P c method params value

/-- State of the cache after a sequence of calls. -/
def run {ε : Type} (P : Parser) : cache → List (Op ε) → cache
  | c, [] => c
  | c, op :: rest => run P (op.apply P c) rest

/-- The call is a `refresh` for a request equal to `k`. -/
def Op.refreshes {ε : Type} (P : Parser) (k : request) : Op ε → Bool
  | .refresh method params _ => request_eq (cache.make_request P method params) k
  | _ => false

mutual
/-- Every object reached from the value through member values only (not through array
elements) has at most 16 members, the size up to which `std::sort` of libstdc++ sorts by
insertion alone, or member names that are pairwise different as C strings. -/
def distinct_or_few_keys : Value → Bool
  | .object ms =>
    (decide (ms.length ≤ 16) || decide ((ms.map (fun m => c_str m.1)).Nodup))
      && distinct_or_few_keys_members ms
  | _ => true
/-- The values of all members satisfy `distinct_or_few_keys`. -/
def distinct_or_few_keys_members : List Member → Bool
  | [] => true
  | (_, v) :: rest => distinct_or_few_keys v && distinct_or_few_keys_members rest
end

mutual
/-- The tree lies in the fragment of the reference parser: it holds no double and every
integer is in the range of `int64_t` or `uint64_t`. -/
def in_fragment : Value → Bool
  | .null => true
  | .bool _ => true
  | .int (.ofNat n) => decide (n < 2 ^ 64)
  | .int (.negSucc n) => decide (n + 1 ≤ 2 ^ 63)
  | .double _ => false
  | .string _ => true
  | .array es => in_fragment_elems es
  | .object ms => in_fragment_members ms
/-- All elements lie in the fragment. -/
def in_fragment_elems : List Value → Bool
  | [] => true
  | v :: rest => in_fragment v && in_fragment_elems rest
/-- The values of all members lie in the fragment. -/
def in_fragment_members : List Member → Bool
  | [] => true
  | (_, v) :: rest => in_fragment v && in_fragment_members rest
end

/-! ## Facts about the map -/

namespace cache

theorem request_eq_iff (a b : request) :
    request_eq a b = true ↔ a.method = b.method ∧ a.h_params.json = b.h_params.json := by
  simp [request_eq]

theorem request_eq_refl (a : request) : request_eq a a = true := by
  simp [request_eq]

theorem request_eq_false_of_left {e k k2 : request} (h1 : request_eq e k = true)
    (h2 : request_eq k k2 = false) : request_eq e k2 = false := by
  rw [request_eq_iff] at h1
  cases h : request_eq e k2
  · rfl
  · rw [request_eq_iff] at h
    have : request_eq k k2 = true := by
      rw [request_eq_iff]; exact ⟨h1.1.symm.trans h.1, h1.2.symm.trans h.2⟩
    rw [this] at h2; cases h2

theorem get_if_eq_map_at (c : cache) (k : request) : get_if c k = map_at c.cache_ k := by
  unfold get_if
  induction c.cache_ with
  | nil => simp [map_contains, map_at]
  | cons e rest ih =>
    simp only [map_contains, map_at]
    by_cases h : request_eq e.1 k = true
    · simp [h]
    · simpa [h] using ih

theorem map_at_assign_same (m : cache_map) (k : request) (v : response) :
    map_at (map_assign m k v) k = some v := by
  induction m with
  | nil => simp [map_assign, map_at, request_eq_refl]
  | cons e rest ih =>
    by_cases h : request_eq e.1 k = true
    · simp [map_assign, map_at, h]
    · simp [map_assign, map_at, h, ih]

theorem map_at_assign_other (m : cache_map) (k k2 : request) (v : response)
    (h : request_eq k k2 = false) : map_at (map_assign m k v) k2 = map_at m k2 := by
  induction m with
  | nil => simp [map_assign, map_at, h]
  | cons e rest ih =>
    by_cases he : request_eq e.1 k = true
    · have h2 := request_eq_false_of_left he h
      simp [map_assign, map_at, he, h2]
    · by_cases h3 : request_eq e.1 k2 = true
      · simp [map_assign, map_at, he, h3]
      · simp [map_assign, map_at, he, h3, ih]

theorem lookup_insert_same (P : Parser) (c : cache) (m p : String) (v : string_view) :
    lookup P (insert P c m p v).2 m p = some v.chars := by
  simp [lookup, insert, get_if_eq_map_at, map_at_assign_same]

theorem get_if_insert_other (P : Parser) (c : cache) (m p : String) (v : string_view)
    (k : request) (h : request_eq (make_request P m p) k = false) :
    get_if (insert P c m p v).2 k = get_if c k := by
  simp [insert, get_if_eq_map_at, map_at_assign_other _ _ _ _ h]

theorem lookup_or_insert_hit {ε : Type} (P : Parser) (c : cache) (m p : String)
    (f : factory ε) (r : response) (h : lookup P c m p = some r) :
    lookup_or_insert P c m p f =
      { returned := .ok { chars := r, storage := Storage.local_variable },
        after := c, calls := [] } := by
  simp [lookup_or_insert, h]

theorem lookup_or_insert_miss {ε : Type} (P : Parser) (c : cache) (m p : String)
    (f : factory ε) (h : lookup P c m p = none) :
    lookup_or_insert P c m p f =
      match f m p with
      | .ok v =>
        { returned := .ok { chars := v, storage := Storage.temporary },
          after := (insert P c m p { chars := v, storage := Storage.temporary }).2,
          calls := [(m, p)] }
      | .error e => { returned := .error e, after := c, calls := [(m, p)] } := by
  simp only [lookup_or_insert, h]
  cases f m p <;> rfl

theorem lookup_or_insert_miss_calls {ε : Type} (P : Parser) (c : cache) (m p : String)
    (f : factory ε) (hmiss : lookup P c m p = none) :
    (lookup_or_insert P c m p f).calls = [(m, p)] ∧
    ∀ v, f m p = .ok v → lookup P (lookup_or_insert P c m p f).after m p = some v := by
  rw [lookup_or_insert_miss P c m p f hmiss]
  cases hf : f m p with
  | ok w =>
    refine ⟨rfl, ?_⟩
    intro v hv
    cases hv
    exact lookup_insert_same P c m p _
  | error e =>
    refine ⟨rfl, ?_⟩
    intro v hv
    cases hv

theorem lookup_after_lookup_or_insert {ε : Type} (P : Parser) (c : cache) (m p : String)
    (f : factory ε) (v : string_view)
    (h : (lookup_or_insert P c m p f).returned = .ok v) :
    lookup P (lookup_or_insert P c m p f).after m p = some v.chars := by
  cases hl : lookup P c m p with
  | some r =>
    rw [lookup_or_insert_hit P c m p f r hl] at h ⊢
    simp only [Except.ok.injEq] at h
    subst h
    exact hl
  | none =>
    rw [lookup_or_insert_miss P c m p f hl] at h ⊢
    cases hf : f m p with
    | ok w =>
      simp only [hf, Except.ok.injEq] at h ⊢
      subst h
      exact lookup_insert_same P c m p _
    | error e => simp [hf] at h

/-- On a hit the view returned by `lookup_or_insert` points into a local variable. -/
theorem lookup_or_insert_hit_view {ε : Type} (P : Parser) (c : cache) (m p : String)
    (f : factory ε) (r : response) (h : lookup P c m p = some r) :
    (lookup_or_insert P c m p f).returned
      = .ok { chars := r, storage := Storage.local_variable } := by
  rw [lookup_or_insert_hit P c m p f r h]

/-- On a miss the view returned by `lookup_or_insert` points into the temporary that
holds the result of the factory. -/
theorem lookup_or_insert_miss_view {ε : Type} (P : Parser) (c : cache) (m p : String)
    (f : factory ε) (v : String) (h : lookup P c m p = none) (hf : f m p = .ok v) :
    (lookup_or_insert P c m p f).returned
      = .ok { chars := v, storage := Storage.temporary } := by
  rw [lookup_or_insert_miss P c m p f h, hf]

end cache


/-! ## The cache contract -/

/-- C1 (evaluation at the failing input): the parameter texts `[{"a":1,"b":2}]` and
`[{"b":2,"a":1}]` are valid, their trees are equal up to the order of members, and yet
after `refresh("m", [{"a":1,"b":2}], "v")` on a fresh cache `lookup("m", [{"b":2,"a":1}])`
is empty: `make_request` writes the members back in document order. -/
theorem C1_reordered_params_miss :
    parse_json "[\x7b\"a\":1,\"b\":2\x7d]"
        = some (.array [.object [("a", .int 1), ("b", .int 2)]]) ∧
    parse_json "[\x7b\"b\":2,\"a\":1\x7d]"
        = some (.array [.object [("b", .int 2), ("a", .int 1)]]) ∧
    SameUpToOrder (.array [.object [("a", .int 1), ("b", .int 2)]])
        (.array [.object [("b", .int 2), ("a", .int 1)]]) ∧
    (cache.make_request parse_json "m" "[\x7b\"a\":1,\"b\":2\x7d]").h_params.json
        = "[\x7b\"a\":1,\"b\":2\x7d]" ∧
    (cache.make_request parse_json "m" "[\x7b\"b\":2,\"a\":1\x7d]").h_params.json
        = "[\x7b\"b\":2,\"a\":1\x7d]" ∧
    cache.lookup parse_json
        (cache.refresh parse_json cache.empty "m" "[\x7b\"a\":1,\"b\":2\x7d]" "v")
        "m" "[\x7b\"b\":2,\"a\":1\x7d]" = none := by
  refine ⟨rfl, rfl, ?_, by decide, by decide, by decide⟩
  exact SameUpToOrder.elem [] [] (SameUpToOrder.swap [] [] ("a", .int 1) ("b", .int 2))

/-- C3 (evaluation at the failing input): on a fresh cache
`lookup_or_insert("aMethod", [{"key":"value"}], fixed_value{"R1"})` is a miss; the factory is
called once with the arguments as received and `R1` is stored, but the returned
`std::string_view` points into the temporary `std::string` that the factory returned,
which is destroyed when the `return` statement ends: the caller does not receive
`f(m, p)` but a dangling view. -/
theorem C3_miss_returns_view_of_temporary :
    cache.lookup parse_json cache.empty "aMethod" "[\x7b\"key\":\"value\"\x7d]" = none ∧
    (cache.lookup_or_insert parse_json cache.empty "aMethod" "[\x7b\"key\":\"value\"\x7d]"
        (fixed_value "R1")).calls = [("aMethod", "[\x7b\"key\":\"value\"\x7d]")] ∧
    cache.lookup parse_json
      (cache.lookup_or_insert parse_json cache.empty "aMethod" "[\x7b\"key\":\"value\"\x7d]"
        (fixed_value "R1")).after "aMethod" "[\x7b\"key\":\"value\"\x7d]" = some "R1" ∧
    (cache.lookup_or_insert parse_json cache.empty "aMethod" "[\x7b\"key\":\"value\"\x7d]"
        (fixed_value "R1")).returned
      = .ok { chars := "R1", storage := Storage.temporary } ∧
    Storage.outlives_call Storage.temporary = false :=
  ⟨by decide, rfl, by decide, rfl, rfl⟩

/-- C4 (evaluation at the failing input): the cache holds `R1` for the request and
`lookup_or_insert` is called with a factory that would return `R2`; the factory is not
called and the cache is unchanged, but the returned `std::string_view` points into the
local `std::optional` named `existing`, which is destroyed when the function returns:
the caller does not receive the stored value but a dangling view. -/
theorem C4_hit_returns_view_of_local :
    cache.lookup parse_json
      (cache.refresh parse_json cache.empty "aMethod" "[\x7b\"key\":\"value\"\x7d]" "R1")
      "aMethod" "[\x7b\"key\":\"value\"\x7d]" = some "R1" ∧
    (cache.lookup_or_insert parse_json
      (cache.refresh parse_json cache.empty "aMethod" "[\x7b\"key\":\"value\"\x7d]" "R1")
      "aMethod" "[\x7b\"key\":\"value\"\x7d]" (fixed_value "R2")).calls = [] ∧
    cache.lookup parse_json
      (cache.lookup_or_insert parse_json
        (cache.refresh parse_json cache.empty "aMethod" "[\x7b\"key\":\"value\"\x7d]" "R1")
        "aMethod" "[\x7b\"key\":\"value\"\x7d]" (fixed_value "R2")).after
      "aMethod" "[\x7b\"key\":\"value\"\x7d]" = some "R1" ∧
    (cache.lookup_or_insert parse_json
      (cache.refresh parse_json cache.empty "aMethod" "[\x7b\"key\":\"value\"\x7d]" "R1")
      "aMethod" "[\x7b\"key\":\"value\"\x7d]" (fixed_value "R2")).returned
      = .ok { chars := "R1", storage := Storage.local_variable } ∧
    Storage.outlives_call Storage.local_variable = false :=
  ⟨by decide, rfl, by decide, rfl, rfl⟩

/-- C5: whatever the cache holds, after `refresh(m, p, v)` the call `lookup(m, p)`
returns exactly `v`. -/
theorem C5_refresh_overwrites (P : Parser) (c : cache) (m p v : String) :
    cache.lookup P (cache.refresh P c m p v) m p = some v :=
  cache.lookup_insert_same P c m p { chars := v, storage := Storage.argument }

/-- C6: `lookup(m)` is `lookup(m, "[]")` and `lookup_or_insert(m, f)` is
`lookup_or_insert(m, "[]", f)` (same result, same state afterwards); so a value inserted
with the parameters `"[]"` is found without parameters, and the other way round. -/
theorem C6_no_params_is_empty_list {ε : Type} (P : Parser) (c : cache) (m : String)
    (f : factory ε) :
    cache.lookup_method P c m = cache.lookup P c m "[]" ∧
    cache.lookup_or_insert_method P c m f = cache.lookup_or_insert P c m "[]" f ∧
    (∀ v, (cache.lookup_or_insert P c m "[]" f).returned = .ok v →
      cache.lookup_method P (cache.lookup_or_insert P c m "[]" f).after m = some v.chars) ∧
    (∀ v, (cache.lookup_or_insert_method P c m f).returned = .ok v →
      cache.lookup P (cache.lookup_or_insert_method P c m f).after m "[]"
        = some v.chars) ∧
    (∀ v, cache.lookup_method P (cache.refresh P c m "[]" v) m = some v) :=
  ⟨rfl, rfl,
   fun v h => cache.lookup_after_lookup_or_insert P c m "[]" f v h,
   fun v h => cache.lookup_after_lookup_or_insert P c m "[]" f v h,
   fun v => cache.lookup_insert_same P c m "[]" { chars := v, storage := Storage.argument }⟩

/-- C9: when `lookup(m, p)` is empty and `f` throws on `(m, p)`, `lookup_or_insert`
lets the exception out, the cache is unchanged and `lookup(m, p)` is still empty. -/
theorem C9_failing_compute_inserts_nothing {ε : Type} (P : Parser) (c : cache)
    (m p : String) (f : factory ε) (e : ε)
    (hmiss : cache.lookup P c m p = none) (hthrow : f m p = .error e) :
    (cache.lookup_or_insert P c m p f).returned = .error e ∧
    (cache.lookup_or_insert P c m p f).after = c ∧
    cache.lookup P (cache.lookup_or_insert P c m p f).after m p = none := by
  rw [cache.lookup_or_insert_miss P c m p f hmiss, hthrow]
  exact ⟨rfl, rfl, hmiss⟩

/-- C9 at a fresh cache and a factory that throws. -/
theorem C9_failing_compute_inserts_nothing_witness :
    cache.lookup parse_json cache.empty "aMethod" "[1]" = none ∧
    throwing "down" "aMethod" "[1]" = .error "down" ∧
    (cache.lookup_or_insert parse_json cache.empty "aMethod" "[1]"
      (throwing "down")).returned = .error "down" ∧
    (cache.lookup_or_insert parse_json cache.empty "aMethod" "[1]"
      (throwing "down")).after = cache.empty :=
  have h := C9_failing_compute_inserts_nothing parse_json cache.empty "aMethod" "[1]"
    (throwing "down") "down" (by decide) rfl
  ⟨by decide, rfl, h.1, h.2.1⟩

/-- C10: requests that differ in the method are different entries, and a write touches
only its own key: after `refresh(m1, p, v)` the call `lookup(m2, q)` with `m2 ≠ m1`
returns what it returned before, also for `q = p`; and for every request `k` that is not
equal to the written one, `get_if k` is unchanged by `refresh` and by
`lookup_or_insert`. -/
theorem C10_write_touches_only_its_key (P : Parser) (c : cache) (m1 m2 p q v : String)
    (hm : m1 ≠ m2) :
    cache.lookup P (cache.refresh P c m1 p v) m2 q = cache.lookup P c m2 q ∧
    request_eq (cache.make_request P m1 p) (cache.make_request P m2 p) = false ∧
    ∀ k : request, request_eq (cache.make_request P m1 p) k = false →
      cache.get_if (cache.refresh P c m1 p v) k = cache.get_if c k ∧
      ∀ (ε : Type) (f : factory ε),
        cache.get_if (cache.lookup_or_insert P c m1 p f).after k = cache.get_if c k := by
  have hne : ∀ q, request_eq (cache.make_request P m1 p) (cache.make_request P m2 q)
      = false := by
    intro q
    cases h : request_eq (cache.make_request P m1 p) (cache.make_request P m2 q)
    · rfl
    · rw [cache.request_eq_iff] at h
      exact absurd h.1 hm
  refine ⟨cache.get_if_insert_other P c m1 p _ _ (hne q), hne p, ?_⟩
  intro k hk
  refine ⟨cache.get_if_insert_other P c m1 p _ k hk, ?_⟩
  intro ε f
  cases hl : cache.lookup P c m1 p with
  | some r => rw [cache.lookup_or_insert_hit P c m1 p f r hl]
  | none =>
    rw [cache.lookup_or_insert_miss P c m1 p f hl]
    cases f m1 p with
    | ok w => exact cache.get_if_insert_other P c m1 p _ k hk
    | error e => rfl

/-- C10 at two methods with the same parameters. -/
theorem C10_write_touches_only_its_key_witness :
    "getA" ≠ "getB" ∧
    cache.lookup parse_json
      (cache.refresh parse_json (cache.refresh parse_json cache.empty "getB" "[1]" "old")
        "getA" "[1]" "new") "getB" "[1]" = some "old" :=
  ⟨by decide,
   (C10_write_touches_only_its_key parse_json
      (cache.refresh parse_json cache.empty "getB" "[1]" "old")
      "getA" "getB" "[1]" "[1]" "new" (by decide)).1.trans (by decide)⟩


/-! ## Sorting -/

namespace detail

theorem set_perm_cons_eraseIdx : ∀ (l : List Member) (i : Nat) (a : Member),
    i < l.length → (l.set i a).Perm (a :: l.eraseIdx i)
  | [], i, a, h => by simp at h
  | x :: t, 0, a, _ => by simp
  | x :: t, i + 1, a, h => by
    have ih := set_perm_cons_eraseIdx t i a (by simpa using h)
    simp only [List.set_cons_succ, List.eraseIdx_cons_succ]
    exact (List.Perm.cons x ih).trans (List.Perm.swap a x _)

theorem at_index_cons_succ (x : Member) (t : List Member) (i : Nat) :
    at_index (x :: t) (i + 1) = at_index t i := by
  simp [at_index]

theorem set_at_index_self : ∀ (l : List Member) (i : Nat), l.set i (at_index l i) = l
  | [], i => by simp
  | x :: t, 0 => by simp [at_index]
  | x :: t, i + 1 => by
    rw [at_index_cons_succ, List.set_cons_succ, set_at_index_self t i]

theorem perm_cons_eraseIdx (l : List Member) (i : Nat) (h : i < l.length) :
    l.Perm (at_index l i :: l.eraseIdx i) := by
  have := set_perm_cons_eraseIdx l i (at_index l i) h
  rwa [set_at_index_self] at this

/-- Moving the element at `c` into the hole at `h` and filling position `c` gives the
same elements as filling the hole at `h`. -/
theorem hole_move : ∀ (l : List Member) (h c : Nat) (v : Member),
    h < l.length → c < l.length →
    ((l.set h (at_index l c)).set c v).Perm (l.set h v)
  | [], h, c, v, hh, _ => by simp at hh
  | x :: t, 0, 0, v, _, _ => by simp
  | x :: t, 0, c + 1, v, _, hc => by
    have hc2 : c < t.length := by simpa using hc
    rw [at_index_cons_succ]
    simp only [List.set_cons_zero, List.set_cons_succ]
    have h1 := set_perm_cons_eraseIdx t c v hc2
    have h2 := perm_cons_eraseIdx t c hc2
    exact ((List.Perm.cons _ h1).trans (List.Perm.swap _ _ _)).trans (List.Perm.cons v h2.symm)
  | x :: t, h + 1, 0, v, hh, _ => by
    have hh2 : h < t.length := by simpa using hh
    simp only [at_index, List.getD_cons_zero, List.set_cons_zero, List.set_cons_succ]
    have h1 := set_perm_cons_eraseIdx t h x hh2
    have h2 := set_perm_cons_eraseIdx t h v hh2
    exact ((List.Perm.cons v h1).trans (List.Perm.swap _ _ _)).trans (List.Perm.cons x h2.symm)
  | x :: t, h + 1, c + 1, v, hh, hc => by
    rw [at_index_cons_succ]
    simp only [List.set_cons_succ]
    exact List.Perm.cons x (hole_move t h c v (by simpa using hh) (by simpa using hc))

theorem iter_swap_perm (l : List Member) (i j : Nat) : (iter_swap l i j).Perm l := by
  unfold iter_swap
  split_ifs with h
  · have := hole_move l i j (at_index l i) h.1 h.2
    rwa [set_at_index_self] at this
  · exact List.Perm.refl l

theorem move_median_to_first_perm (comp : Member → Member → Bool) (l : List Member)
    (result a b c : Nat) : (move_median_to_first comp l result a b c).Perm l := by
  unfold move_median_to_first
  split_ifs <;> exact iter_swap_perm _ _ _

theorem unguarded_partition_perm (comp : Member → Member → Bool) (pivot : Nat) :
    ∀ (fuel : Nat) (l : List Member) (first last : Nat),
      (unguarded_partition comp pivot fuel l first last).1.Perm l
  | 0, l, first, last => List.Perm.refl l
  | fuel + 1, l, first, last => by
    simp only [unguarded_partition]
    split_ifs
    · exact (unguarded_partition_perm comp pivot fuel _ _ _).trans (iter_swap_perm _ _ _)
    · exact List.Perm.refl l

theorem unguarded_partition_pivot_perm (comp : Member → Member → Bool) (l : List Member) :
    (unguarded_partition_pivot comp l).1.Perm l := by
  unfold unguarded_partition_pivot
  exact (unguarded_partition_perm comp 0 _ _ _ _).trans (move_median_to_first_perm _ _ _ _ _ _)

theorem push_heap_perm (comp : Member → Member → Bool) (value : Member) (topIndex : Nat) :
    ∀ (fuel : Nat) (l : List Member) (holeIndex : Nat), holeIndex < l.length →
      (push_heap comp value topIndex fuel l holeIndex).Perm (l.set holeIndex value)
  | 0, l, holeIndex, _ => List.Perm.refl _
  | fuel + 1, l, holeIndex, h => by
    simp only [push_heap]
    split_ifs
    · have hp : (holeIndex - 1) / 2 < l.length := by omega
      have ih := push_heap_perm comp value topIndex fuel
        (l.set holeIndex (at_index l ((holeIndex - 1) / 2))) ((holeIndex - 1) / 2)
        (by simpa using hp)
      exact ih.trans (hole_move l holeIndex _ value h hp)
    · exact List.Perm.refl _

theorem sift_hole_perm (comp : Member → Member → Bool) (len : Nat) :
    ∀ (fuel : Nat) (l : List Member) (hole : Nat), len ≤ l.length → hole < len →
      (sift_hole comp len fuel l hole).2 < len ∧
      (sift_hole comp len fuel l hole).1.length = l.length ∧
      ∀ v, ((sift_hole comp len fuel l hole).1.set (sift_hole comp len fuel l hole).2 v).Perm
        (l.set hole v)
  | 0, l, hole, _, hh => ⟨hh, rfl, fun _ => List.Perm.refl _⟩
  | fuel + 1, l, hole, hl, hh => by
    simp only [sift_hole]
    split_ifs with h1 h2
    · have hc : 2 * (hole + 1) - 1 < len := by omega
      obtain ⟨a, b, c⟩ := sift_hole_perm comp len fuel
        (l.set hole (at_index l (2 * (hole + 1) - 1))) (2 * (hole + 1) - 1)
        (by simpa using hl) hc
      refine ⟨a, by simpa using b, fun v => (c v).trans ?_⟩
      exact hole_move l hole _ v (by omega) (by omega)
    · have hc : 2 * (hole + 1) < len := by omega
      obtain ⟨a, b, c⟩ := sift_hole_perm comp len fuel
        (l.set hole (at_index l (2 * (hole + 1)))) (2 * (hole + 1))
        (by simpa using hl) hc
      refine ⟨a, by simpa using b, fun v => (c v).trans ?_⟩
      exact hole_move l hole _ v (by omega) (by omega)
    · exact ⟨hh, rfl, fun _ => List.Perm.refl _⟩

theorem adjust_heap_perm (comp : Member → Member → Bool) (l : List Member)
    (holeIndex len : Nat) (value : Member) (hl : len ≤ l.length) (hh : holeIndex < len) :
    (adjust_heap comp l holeIndex len value).Perm (l.set holeIndex value) := by
  obtain ⟨a, b, c⟩ := sift_hole_perm comp len len l holeIndex hl hh
  unfold adjust_heap
  simp only
  split_ifs with h
  · have h1 : (sift_hole comp len len l holeIndex).2
        < (sift_hole comp len len l holeIndex).1.length := by omega
    have h2 : 2 * ((sift_hole comp len len l holeIndex).2 + 1) - 1
        < (sift_hole comp len len l holeIndex).1.length := by omega
    refine (push_heap_perm comp value holeIndex len _ _ (by simpa using h2)).trans ?_
    exact (hole_move _ _ _ value h1 h2).trans (c value)
  · exact (push_heap_perm comp value holeIndex len _ _ (by omega)).trans (c value)

theorem pop_heap_perm (comp : Member → Member → Bool) (l : List Member) (last result : Nat)
    (hl : last ≤ l.length) (h0 : 0 < last) (hr : result < l.length) :
    (pop_heap comp l last result).Perm l := by
  unfold pop_heap
  have h1 := adjust_heap_perm comp (l.set result (at_index l 0)) 0 last (at_index l result)
    (by simpa using hl) h0
  have h2 := hole_move l result 0 (at_index l result) hr (by omega)
  rw [set_at_index_self] at h2
  exact h1.trans h2

theorem make_heap_loop_perm (comp : Member → Member → Bool) (len : Nat) :
    ∀ (parent : Nat) (l : List Member), len ≤ l.length → parent < len →
      (make_heap_loop comp len parent l).Perm l
  | 0, l, hl, hp => by
    have := adjust_heap_perm comp l 0 len (at_index l 0) hl hp
    rwa [set_at_index_self] at this
  | parent + 1, l, hl, hp => by
    have h1 := adjust_heap_perm comp l (parent + 1) len (at_index l (parent + 1)) hl hp
    rw [set_at_index_self] at h1
    simp only [make_heap_loop]
    exact (make_heap_loop_perm comp len parent _ (by rw [h1.length_eq]; exact hl)
      (by omega)).trans h1

theorem make_heap_perm (comp : Member → Member → Bool) (l : List Member) :
    (make_heap comp l).Perm l := by
  unfold make_heap
  split_ifs with h
  · exact List.Perm.refl l
  · exact make_heap_loop_perm comp l.length _ l (Nat.le_refl _) (by omega)

theorem sort_heap_perm (comp : Member → Member → Bool) :
    ∀ (last : Nat) (l : List Member), last ≤ l.length → (sort_heap comp last l).Perm l
  | 0, l, _ => List.Perm.refl l
  | last + 1, l, h => by
    simp only [sort_heap]
    split_ifs with h1
    · have hp := pop_heap_perm comp l last last (by omega) (by omega) (by omega)
      exact (sort_heap_perm comp last _ (by rw [hp.length_eq]; omega)).trans hp
    · exact List.Perm.refl l

theorem partial_sort_perm (comp : Member → Member → Bool) (l : List Member) :
    (partial_sort comp l).Perm l := by
  unfold partial_sort
  have h := make_heap_perm comp l
  exact (sort_heap_perm comp l.length _ (by rw [h.length_eq])).trans h

theorem introsort_loop_perm (comp : Member → Member → Bool) :
    ∀ (depth_limit : Nat) (l : List Member), (introsort_loop comp depth_limit l).Perm l
  | 0, l => by
    simp only [introsort_loop]
    split_ifs
    · exact partial_sort_perm comp l
    · exact List.Perm.refl l
  | depth_limit + 1, l => by
    simp only [introsort_loop]
    split_ifs
    · have h1 := introsort_loop_perm comp depth_limit
        ((unguarded_partition_pivot comp l).1.take (unguarded_partition_pivot comp l).2)
      have h2 := introsort_loop_perm comp depth_limit
        ((unguarded_partition_pivot comp l).1.drop (unguarded_partition_pivot comp l).2)
      have h3 := List.take_append_drop (unguarded_partition_pivot comp l).2
        (unguarded_partition_pivot comp l).1
      exact ((h1.append h2).trans (by rw [h3])).trans (unguarded_partition_pivot_perm comp l)
    · exact List.Perm.refl l

theorem unguarded_linear_insert_perm (comp : Member → Member → Bool) (val : Member)
    (sorted : List Member) : (unguarded_linear_insert comp val sorted).Perm (val :: sorted) := by
  unfold unguarded_linear_insert
  have h : sorted = (sorted.reverse.dropWhile (fun e => comp val e)).reverse
      ++ (sorted.reverse.takeWhile (fun e => comp val e)).reverse := by
    rw [← List.reverse_append, List.takeWhile_append_dropWhile, List.reverse_reverse]
  conv_rhs => rw [h]
  exact List.perm_middle

theorem insertion_step_perm (comp : Member → Member → Bool) (sorted : List Member)
    (val : Member) : (insertion_step comp sorted val).Perm (val :: sorted) := by
  unfold insertion_step
  split
  · exact List.Perm.refl _
  · split_ifs
    · exact List.Perm.refl _
    · exact unguarded_linear_insert_perm comp val _

theorem foldl_insertion_step_perm (comp : Member → Member → Bool) :
    ∀ (l acc : List Member), (l.foldl (insertion_step comp) acc).Perm (acc ++ l)
  | [], acc => by simp
  | x :: t, acc => by
    simp only [List.foldl_cons]
    refine (foldl_insertion_step_perm comp t _).trans ?_
    refine ((insertion_step_perm comp acc x).append_right t).trans ?_
    have hm : (acc ++ x :: t).Perm (x :: (acc ++ t)) := List.perm_middle
    simpa using hm.symm

theorem insertion_sort_perm (comp : Member → Member → Bool) (l : List Member) :
    (insertion_sort comp l).Perm l := by
  simpa [insertion_sort] using foldl_insertion_step_perm comp l []

theorem unguarded_insertion_sort_perm (comp : Member → Member → Bool) :
    ∀ (rest sorted : List Member),
      (unguarded_insertion_sort comp sorted rest).Perm (sorted ++ rest)
  | [], sorted => by simp [unguarded_insertion_sort]
  | x :: t, sorted => by
    simp only [unguarded_insertion_sort, List.foldl_cons]
    refine (unguarded_insertion_sort_perm comp t _).trans ?_
    refine ((unguarded_linear_insert_perm comp x sorted).append_right t).trans ?_
    have hm : (sorted ++ x :: t).Perm (x :: (sorted ++ t)) := List.perm_middle
    simpa using hm.symm

theorem final_insertion_sort_perm (comp : Member → Member → Bool) (l : List Member) :
    (final_insertion_sort comp l).Perm l := by
  unfold final_insertion_sort
  split_ifs
  · refine (unguarded_insertion_sort_perm comp _ _).trans ?_
    refine ((insertion_sort_perm comp (l.take 16)).append_right _).trans ?_
    rw [List.take_append_drop]
  · exact insertion_sort_perm comp l

theorem std_sort_perm (comp : Member → Member → Bool) (l : List Member) :
    (std_sort comp l).Perm l := by
  unfold std_sort
  split
  · exact List.Perm.refl _
  · exact (final_insertion_sort_perm comp _).trans (introsort_loop_perm comp _ _)

/-- The name of a member as `json_key_cmp` reads it. -/
theorem json_key_cmp_false_iff (a b : Member) :
    json_key_cmp b a = false ↔ (c_str a.1).data ≤ (c_str b.1).data := by
  simp [json_key_cmp]

theorem json_key_cmp_true_le (a b : Member) (h : json_key_cmp a b = true) :
    (c_str a.1).data ≤ (c_str b.1).data := by
  simp only [json_key_cmp, decide_eq_true_eq] at h
  exact le_of_lt h

/-- What the backwards scan of `__unguarded_linear_insert` leaves on the left is not
above the inserted member. -/
theorem dropWhile_le (val : Member) : ∀ (l : List Member),
    l.Pairwise (fun a b => (c_str b.1).data ≤ (c_str a.1).data) →
    ∀ y ∈ l.dropWhile (fun e => json_key_cmp val e), (c_str y.1).data ≤ (c_str val.1).data
  | [], _, y, hy => by simp at hy
  | x :: t, hs, y, hy => by
    rw [List.pairwise_cons] at hs
    by_cases hx : json_key_cmp val x = true
    · rw [List.dropWhile_cons_of_pos hx] at hy
      exact dropWhile_le val t hs.2 y hy
    · rw [List.dropWhile_cons_of_neg hx] at hy
      have hxv : (c_str x.1).data ≤ (c_str val.1).data :=
        (json_key_cmp_false_iff x val).1 (by simpa using hx)
      rcases List.mem_cons.1 hy with rfl | hy
      · exact hxv
      · exact le_trans (hs.1 y hy) hxv

theorem unguarded_linear_insert_sorted (val : Member) (sorted : List Member)
    (hs : sorted.Sorted (fun a b => (c_str a.1).data ≤ (c_str b.1).data)) :
    (unguarded_linear_insert json_key_cmp val sorted).Sorted
      (fun a b => (c_str a.1).data ≤ (c_str b.1).data) := by
  have hr : sorted.reverse.Pairwise (fun a b => (c_str b.1).data ≤ (c_str a.1).data) :=
    List.pairwise_reverse.2 hs
  have hsplit : sorted = (sorted.reverse.dropWhile (fun e => json_key_cmp val e)).reverse
      ++ (sorted.reverse.takeWhile (fun e => json_key_cmp val e)).reverse := by
    rw [← List.reverse_append, List.takeWhile_append_dropWhile, List.reverse_reverse]
  have hs2 := hs
  rw [hsplit] at hs2
  unfold List.Sorted at hs2
  rw [List.pairwise_append] at hs2
  obtain ⟨hA, hB, hAB⟩ := hs2
  unfold unguarded_linear_insert List.Sorted
  rw [List.pairwise_append, List.pairwise_cons]
  refine ⟨hA, ⟨?_, hB⟩, ?_⟩
  · intro b hb
    have := List.mem_takeWhile_imp (List.mem_reverse.1 hb)
    exact json_key_cmp_true_le val b this
  · intro a ha b hb
    rcases List.mem_cons.1 hb with rfl | hb
    · exact dropWhile_le b _ hr a (List.mem_reverse.1 ha)
    · exact hAB a ha b hb

theorem insertion_step_sorted (sorted : List Member) (val : Member)
    (hs : sorted.Sorted (fun a b => (c_str a.1).data ≤ (c_str b.1).data)) :
    (insertion_step json_key_cmp sorted val).Sorted
      (fun a b => (c_str a.1).data ≤ (c_str b.1).data) := by
  unfold insertion_step
  split
  · exact List.sorted_singleton val
  · rename_i first rest
    split_ifs with h
    · unfold List.Sorted
      rw [List.pairwise_cons]
      refine ⟨?_, hs⟩
      have hvf := json_key_cmp_true_le val first h
      intro y hy
      rcases List.mem_cons.1 hy with rfl | hy
      · exact hvf
      · exact le_trans hvf ((List.pairwise_cons.1 hs).1 y hy)
    · exact unguarded_linear_insert_sorted val _ hs

theorem insertion_sort_sorted (l : List Member) :
    (insertion_sort json_key_cmp l).Sorted
      (fun a b => (c_str a.1).data ≤ (c_str b.1).data) := by
  have h : ∀ (l acc : List Member),
      acc.Sorted (fun a b => (c_str a.1).data ≤ (c_str b.1).data) →
      (l.foldl (insertion_step json_key_cmp) acc).Sorted
        (fun a b => (c_str a.1).data ≤ (c_str b.1).data) := by
    intro l
    induction l with
    | nil => intro acc h; exact h
    | cons x t ih => intro acc h; exact ih _ (insertion_step_sorted acc x h)
  exact h l [] List.sorted_nil

theorem unguarded_insertion_sort_sorted : ∀ (rest sorted : List Member),
    sorted.Sorted (fun a b => (c_str a.1).data ≤ (c_str b.1).data) →
    (unguarded_insertion_sort json_key_cmp sorted rest).Sorted
      (fun a b => (c_str a.1).data ≤ (c_str b.1).data)
  | [], sorted, h => h
  | x :: t, sorted, h => by
    simp only [unguarded_insertion_sort, List.foldl_cons]
    exact unguarded_insertion_sort_sorted t _ (unguarded_linear_insert_sorted x sorted h)

theorem final_insertion_sort_sorted (l : List Member) :
    (final_insertion_sort json_key_cmp l).Sorted
      (fun a b => (c_str a.1).data ≤ (c_str b.1).data) := by
  unfold final_insertion_sort
  split_ifs
  · exact unguarded_insertion_sort_sorted _ _ (insertion_sort_sorted _)
  · exact insertion_sort_sorted l

theorem sorted_std_sort (l : List Member) :
    (std_sort json_key_cmp l).Sorted (fun a b => (c_str a.1).data ≤ (c_str b.1).data) := by
  unfold std_sort
  split
  · exact List.sorted_nil
  · exact final_insertion_sort_sorted _

theorem perm_std_sort (l : List Member) : (std_sort json_key_cmp l).Perm l :=
  std_sort_perm json_key_cmp l

/-- Two orderings of the same members that are both sorted by name coincide when the
names are pairwise different. -/
theorem sorted_perm_unique {l1 l2 : List Member} (hp : l1.Perm l2)
    (hd : (l1.map (fun m => c_str m.1)).Nodup)
    (h1 : l1.Sorted (fun a b => (c_str a.1).data ≤ (c_str b.1).data))
    (h2 : l2.Sorted (fun a b => (c_str a.1).data ≤ (c_str b.1).data)) : l1 = l2 := by
  have hd2 : (l2.map (fun m => c_str m.1)).Nodup := (hp.map _).nodup_iff.1 hd
  have strict : ∀ l : List Member, (l.map (fun m => c_str m.1)).Nodup →
      l.Sorted (fun a b => (c_str a.1).data ≤ (c_str b.1).data) →
      l.Sorted (fun a b => (c_str a.1).data < (c_str b.1).data) := by
    intro l hn hs
    have hne : l.Pairwise (fun a b => c_str a.1 ≠ c_str b.1) := by
      rw [List.Nodup, List.pairwise_map] at hn
      exact hn
    refine List.Pairwise.imp₂ ?_ hs hne
    intro a b hle hne
    refine lt_of_le_of_ne hle ?_
    intro h
    apply hne
    cases ha : c_str a.1
    cases hb : c_str b.1
    simp_all
  have hA : IsAntisymm Member (fun a b => (c_str a.1).data < (c_str b.1).data) :=
    ⟨fun a b hab hba => absurd hab (lt_asymm hba)⟩
  exact List.eq_of_perm_of_sorted hp (strict l1 hd h1) (strict l2 hd2 h2)

/-- On members with pairwise different names `std::sort` gives the same result for every
initial order. -/
theorem std_sort_perm_invariant {l1 l2 : List Member} (hp : l1.Perm l2)
    (hd : (l1.map (fun m => c_str m.1)).Nodup) :
    std_sort json_key_cmp l1 = std_sort json_key_cmp l2 := by
  have hp1 := perm_std_sort l1
  have hp2 := perm_std_sort l2
  refine sorted_perm_unique (hp1.trans (hp.trans hp2.symm)) ?_ (sorted_std_sort l1)
    (sorted_std_sort l2)
  exact (hp1.map _).nodup_iff.2 hd

theorem sort_member_value_object (ms : List Member) :
    sort_member_value (.object ms) = .object (std_sort json_key_cmp (sort_loop ms)) := by
  simp [sort_member_value]

theorem sort_loop_eq_map (ms : List Member) :
    sort_loop ms = ms.map (fun m => (m.1, sort_member_value m.2)) := by
  induction ms with
  | nil => simp [sort_loop]
  | cons m rest ih =>
    obtain ⟨k, v⟩ := m
    simp [sort_loop, ih]

theorem map_name_sort_loop (ms : List Member) :
    (sort_loop ms).map (fun m => c_str m.1) = ms.map (fun m => c_str m.1) := by
  simp [sort_loop_eq_map, Function.comp_def]

end detail

theorem distinct_keys_members_iff (ms : List Member) :
    distinct_keys_members ms = true ↔ ∀ m ∈ ms, distinct_keys m.2 = true := by
  induction ms with
  | nil => simp [distinct_keys_members]
  | cons m rest ih =>
    obtain ⟨k, v⟩ := m
    simp [distinct_keys_members, ih]

theorem distinct_keys_object (ms : List Member) :
    distinct_keys (.object ms) = true ↔
      (ms.map (fun m => c_str m.1)).Nodup ∧ ∀ m ∈ ms, distinct_keys m.2 = true := by
  simp [distinct_keys, distinct_keys_members_iff]

theorem SameUpToOrderOutsideArrays.distinct_keys_iff {a b : Value}
    (h : SameUpToOrderOutsideArrays a b) :
    distinct_keys a = true ↔ distinct_keys b = true := by
  induction h with
  | refl v => exact Iff.rfl
  | trans _ _ ih1 ih2 => exact ih1.trans ih2
  | swap pre post a b =>
    have hp : (pre ++ a :: b :: post).Perm (pre ++ b :: a :: post) :=
      List.Perm.append_left pre (List.Perm.swap b a post)
    rw [distinct_keys_object, distinct_keys_object, (hp.map _).nodup_iff]
    constructor
    · rintro ⟨h1, h2⟩
      exact ⟨h1, fun m hm => h2 m (hp.mem_iff.2 hm)⟩
    · rintro ⟨h1, h2⟩
      exact ⟨h1, fun m hm => h2 m (hp.mem_iff.1 hm)⟩
  | member pre post k _ ih =>
    rw [distinct_keys_object, distinct_keys_object]
    simp only [List.map_append, List.map_cons, List.mem_append, List.mem_cons]
    constructor
    · rintro ⟨h1, h2⟩
      refine ⟨h1, ?_⟩
      rintro m (hm | rfl | hm)
      · exact h2 m (Or.inl hm)
      · exact ih.1 (h2 _ (Or.inr (Or.inl rfl)))
      · exact h2 m (Or.inr (Or.inr hm))
    · rintro ⟨h1, h2⟩
      refine ⟨h1, ?_⟩
      rintro m (hm | rfl | hm)
      · exact h2 m (Or.inl hm)
      · exact ih.2 (h2 _ (Or.inr (Or.inl rfl)))
      · exact h2 m (Or.inr (Or.inr hm))

/-- Trees that differ only in the order of members outside arrays, with pairwise
different names in every object concerned, are sorted to the same tree. -/
theorem SameUpToOrderOutsideArrays.sort_eq {a b : Value}
    (h : SameUpToOrderOutsideArrays a b) (hd : distinct_keys a = true) :
    sort_member_value a = sort_member_value b := by
  induction h with
  | refl v => rfl
  | trans h1 _ ih1 ih2 => exact (ih1 hd).trans (ih2 (h1.distinct_keys_iff.1 hd))
  | swap pre post a b =>
    have hp : (pre ++ a :: b :: post).Perm (pre ++ b :: a :: post) :=
      List.Perm.append_left pre (List.Perm.swap b a post)
    rw [sort_member_value_object, sort_member_value_object]
    congr 1
    apply std_sort_perm_invariant
    · rw [sort_loop_eq_map, sort_loop_eq_map]
      exact hp.map _
    · rw [map_name_sort_loop]
      exact ((distinct_keys_object _).1 hd).1
  | member pre post k _ ih =>
    rw [sort_member_value_object, sort_member_value_object]
    have hv := ih (((distinct_keys_object _).1 hd).2 (k, _) (by simp))
    simp [sort_loop_eq_map, hv]

theorem SameUpToOrderOutsideArrays.isObject_eq {a b : Value}
    (h : SameUpToOrderOutsideArrays a b) : a.IsObject = b.IsObject := by
  induction h with
  | refl v => rfl
  | trans _ _ ih1 ih2 => exact ih1.trans ih2
  | swap pre post a b => rfl
  | member pre post k _ _ => rfl

theorem sort_recursively_eq (v : Value) :
    sort_recursively v =
      if v.IsObject then .ok (sort_member_value v) else .error Failure.assertion := by
  cases v <;> simp [sort_recursively, sort_member_value, Value.IsObject]


/-! ## Canonical form and member order -/

/-- C2 (the claim fails as stated), at three pairs of valid texts whose trees are equal up
to the order of members and for which `normalize_json` returns two different texts:
`{"x":[{"b":1,"a":2}]}` and `{"x":[{"a":2,"b":1}]}` (the object is an element of an array, and
`sort_recursively` only descends into member values that are objects);
`{"a":1,"a":2}` and `{"a":2,"a":1}` (the comparator sees names only, so no sort that consults
it can tell the two members apart);
`{"a\u0000y":1,"a\u0000x":2}` and `{"a\u0000x":2,"a\u0000y":1}` (the names are read as C strings
and both end at the NUL). -/
theorem C2_order_below_arrays_is_kept :
    (parse_json "\x7b\"x\":[\x7b\"b\":1,\"a\":2\x7d]\x7d"
        = some (.object [("x", .array [.object [("b", .int 1), ("a", .int 2)]])]) ∧
     parse_json "\x7b\"x\":[\x7b\"a\":2,\"b\":1\x7d]\x7d"
        = some (.object [("x", .array [.object [("a", .int 2), ("b", .int 1)]])]) ∧
     SameUpToOrder (.object [("x", .array [.object [("b", .int 1), ("a", .int 2)]])])
        (.object [("x", .array [.object [("a", .int 2), ("b", .int 1)]])]) ∧
     normalize_json parse_json "\x7b\"x\":[\x7b\"b\":1,\"a\":2\x7d]\x7d"
        = .ok "\x7b\"x\":[\x7b\"b\":1,\"a\":2\x7d]\x7d" ∧
     normalize_json parse_json "\x7b\"x\":[\x7b\"a\":2,\"b\":1\x7d]\x7d"
        = .ok "\x7b\"x\":[\x7b\"a\":2,\"b\":1\x7d]\x7d" ∧
     normalize_json parse_json "\x7b\"x\":[\x7b\"b\":1,\"a\":2\x7d]\x7d"
        ≠ normalize_json parse_json "\x7b\"x\":[\x7b\"a\":2,\"b\":1\x7d]\x7d") ∧
    (parse_json "\x7b\"a\":1,\"a\":2\x7d" = some (.object [("a", .int 1), ("a", .int 2)]) ∧
     parse_json "\x7b\"a\":2,\"a\":1\x7d" = some (.object [("a", .int 2), ("a", .int 1)]) ∧
     SameUpToOrder (.object [("a", .int 1), ("a", .int 2)])
        (.object [("a", .int 2), ("a", .int 1)]) ∧
     normalize_json parse_json "\x7b\"a\":1,\"a\":2\x7d" = .ok "\x7b\"a\":1,\"a\":2\x7d" ∧
     normalize_json parse_json "\x7b\"a\":2,\"a\":1\x7d" = .ok "\x7b\"a\":2,\"a\":1\x7d" ∧
     normalize_json parse_json "\x7b\"a\":1,\"a\":2\x7d"
        ≠ normalize_json parse_json "\x7b\"a\":2,\"a\":1\x7d") ∧
    (parse_json "\x7b\"a\\u0000y\":1,\"a\\u0000x\":2\x7d"
        = some (.object [("a\x00y", .int 1), ("a\x00x", .int 2)]) ∧
     parse_json "\x7b\"a\\u0000x\":2,\"a\\u0000y\":1\x7d"
        = some (.object [("a\x00x", .int 2), ("a\x00y", .int 1)]) ∧
     SameUpToOrder (.object [("a\x00y", .int 1), ("a\x00x", .int 2)])
        (.object [("a\x00x", .int 2), ("a\x00y", .int 1)]) ∧
     normalize_json parse_json "\x7b\"a\\u0000y\":1,\"a\\u0000x\":2\x7d"
        = .ok "\x7b\"a\\u0000y\":1,\"a\\u0000x\":2\x7d" ∧
     normalize_json parse_json "\x7b\"a\\u0000x\":2,\"a\\u0000y\":1\x7d"
        = .ok "\x7b\"a\\u0000x\":2,\"a\\u0000y\":1\x7d" ∧
     normalize_json parse_json "\x7b\"a\\u0000y\":1,\"a\\u0000x\":2\x7d"
        ≠ normalize_json parse_json "\x7b\"a\\u0000x\":2,\"a\\u0000y\":1\x7d") := by
  have differ : ∀ {x y : Except Failure String} {a b : String},
      x = .ok a → y = .ok b → a ≠ b → x ≠ y := by
    intro x y a b hx hy hab h
    rw [hx, hy] at h
    exact hab (Except.ok.inj h)
  refine ⟨⟨rfl, rfl, ?_, rfl, rfl, differ rfl rfl (by decide)⟩,
    ⟨rfl, rfl, ?_, rfl, rfl, differ rfl rfl (by decide)⟩,
    ⟨rfl, rfl, ?_, rfl, rfl, differ rfl rfl (by decide)⟩⟩
  · exact SameUpToOrder.member [] [] "x"
      (SameUpToOrder.elem [] [] (SameUpToOrder.swap [] [] ("b", .int 1) ("a", .int 2)))
  · exact SameUpToOrder.swap [] [] ("a", .int 1) ("a", .int 2)
  · exact SameUpToOrder.swap [] [] ("a\x00y", .int 1) ("a\x00x", .int 2)

/-- C2 (amended): for valid texts `A` and `B` whose trees are equal up to the order of
members of the top-level object and of objects reached through member values only
(what lies below an array coincides), and where the member names of each such object
are pairwise different, `normalize_json(A) == normalize_json(B)`; blanks between tokens
play no role, since only the trees enter.  When the top-level value is an object the
common result is the text of the sorted tree. -/
theorem C2_normalize_json_order_outside_arrays (P : Parser) (A B : String) (tA tB : Value)
    (hA : P (c_str A) = some tA) (hB : P (c_str B) = some tB)
    (hrel : SameUpToOrderOutsideArrays tA tB) (hd : distinct_keys tA = true) :
    normalize_json P A = normalize_json P B ∧
    (tA.IsObject = true → normalize_json P A = .ok (to_string (sort_member_value tA))) := by
  have hs := hrel.sort_eq hd
  have ho := hrel.isObject_eq
  constructor
  · simp only [normalize_json, Parse, hA, hB, Option.getD_some, sort_recursively_eq, ← ho, hs]
  · intro h
    simp [normalize_json, Parse, hA, sort_recursively_eq, h]

/-- C2 (amended) at the objects of the tests "Order of keys in embedded object does not
matter" and "Additional whitespace is ignored", with an array kept in place. -/
theorem C2_normalize_json_order_outside_arrays_witness :
    normalize_json parse_json
        "\x7b\"value\":0,\"embedded\":\x7b\"key1\":[1,2],\"key0\":null\x7d\x7d"
      = normalize_json parse_json
        " \x7b \"embedded\" : \x7b\"key0\":null, \"key1\":[1, 2]\x7d , \"value\":0 \x7d" ∧
    normalize_json parse_json
        "\x7b\"value\":0,\"embedded\":\x7b\"key1\":[1,2],\"key0\":null\x7d\x7d"
      = .ok "\x7b\"embedded\":\x7b\"key0\":null,\"key1\":[1,2]\x7d,\"value\":0\x7d" :=
  have h := C2_normalize_json_order_outside_arrays parse_json
    "\x7b\"value\":0,\"embedded\":\x7b\"key1\":[1,2],\"key0\":null\x7d\x7d"
    " \x7b \"embedded\" : \x7b\"key0\":null, \"key1\":[1, 2]\x7d , \"value\":0 \x7d"
    (.object [("value", .int 0),
      ("embedded", .object [("key1", .array [.int 1, .int 2]), ("key0", .null)])])
    (.object [("embedded", .object [("key0", .null), ("key1", .array [.int 1, .int 2])]),
      ("value", .int 0)])
    rfl rfl
    (SameUpToOrderOutsideArrays.trans
      (SameUpToOrderOutsideArrays.member [("value", .int 0)] [] "embedded"
        (SameUpToOrderOutsideArrays.swap [] [] ("key1", .array [.int 1, .int 2])
          ("key0", .null)))
      (SameUpToOrderOutsideArrays.swap [] [] ("value", .int 0)
        ("embedded", .object [("key0", .null), ("key1", .array [.int 1, .int 2])])))
    (by decide)
  ⟨h.1, rfl⟩

/-! ## Malformed parameter text -/

/-- C7 (the claim fails as stated): `[1,` is not valid, yet on a fresh cache
`lookup("m", "[1,")` returns an empty optional instead of failing, `refresh("m", "[1,", "v")`
adds an entry to the map, and `lookup_or_insert` runs the factory and stores its value. -/
theorem C7_malformed_params_are_accepted :
    parse_json "[1," = none ∧
    cache.lookup parse_json cache.empty "m" "[1," = none ∧
    (cache.refresh parse_json cache.empty "m" "[1," "v").cache_.length = 1 ∧
    cache.refresh parse_json cache.empty "m" "[1," "v" ≠ cache.empty ∧
    cache.lookup parse_json (cache.refresh parse_json cache.empty "m" "[1," "v") "m" "[1,"
      = some "v" ∧
    (cache.lookup_or_insert parse_json cache.empty "m" "[1," (fixed_value "R")).calls
      = [("m", "[1,")] ∧
    cache.lookup parse_json
      (cache.lookup_or_insert parse_json cache.empty "m" "[1," (fixed_value "R")).after
      "m" "[1," = some "R" ∧
    (cache.lookup_or_insert parse_json cache.empty "m" "[1," (fixed_value "R")).after
      ≠ cache.empty := by
  refine ⟨rfl, by decide, rfl, ?_, by decide, rfl, by decide, ?_⟩
  · intro h
    exact absurd (congrArg (fun c => c.cache_.length) h) (by decide)
  · intro h
    exact absurd (congrArg (fun c => c.cache_.length) h) (by decide)

/-- C7 (amended): there is no ParseError.  For a parameter text `p` that is not valid,
`make_request(m, p)` is the request with the json text `null`; `lookup(m, p)` returns the
entry stored under that request, if any (and, being `const`, changes nothing);
`refresh(m, p, v)` stores `v` under it, so that `lookup(m, p)` then returns `v`; and
`lookup_or_insert(m, p, f)` on a miss calls `f(m, p)` once and stores its result under
that request. -/
theorem C7_malformed_params_keyed_as_null {ε : Type} (P : Parser) (c : cache)
    (m p v : String) (f : factory ε) (hbad : P (c_str p) = none) :
    cache.make_request P m p
      = { method := m, h_params := { params := Value.null, json := "null" } } ∧
    cache.lookup P c m p
      = cache.get_if c { method := m, h_params := { params := Value.null, json := "null" } } ∧
    cache.lookup P (cache.refresh P c m p v) m p = some v ∧
    (cache.lookup P c m p = none →
      (cache.lookup_or_insert P c m p f).calls = [(m, p)] ∧
      ∀ w, f m p = .ok w →
        cache.lookup P (cache.lookup_or_insert P c m p f).after m p = some w) := by
  have hk : cache.make_request P m p
      = { method := m, h_params := { params := Value.null, json := "null" } } := by
    simp only [cache.make_request, Parse, hbad, Option.getD_none]
    rfl
  refine ⟨hk, ?_, cache.lookup_insert_same P c m p _, ?_⟩
  · simp only [cache.lookup, hk]
  · intro hmiss
    exact cache.lookup_or_insert_miss_calls P c m p f hmiss

/-- C7 (amended) at the malformed text `[1,`. -/
theorem C7_malformed_params_keyed_as_null_witness :
    parse_json (c_str "[1,") = none ∧
    cache.make_request parse_json "m" "[1,"
      = { method := "m", h_params := { params := Value.null, json := "null" } } ∧
    cache.lookup parse_json (cache.refresh parse_json cache.empty "m" "[1," "v") "m" "[1,"
      = some "v" ∧
    (cache.lookup_or_insert parse_json cache.empty "m" "[1," (fixed_value "R")).calls
      = [("m", "[1,")] ∧
    cache.lookup parse_json
      (cache.lookup_or_insert parse_json cache.empty "m" "[1," (fixed_value "R")).after
      "m" "[1," = some "R" :=
  have h := C7_malformed_params_keyed_as_null parse_json cache.empty "m" "[1," "v"
    (fixed_value "R") rfl
  ⟨rfl, h.1, h.2.2.1, (h.2.2.2 (by decide)).1, (h.2.2.2 (by decide)).2 "R" rfl⟩


/-! ## The writer is injective -/

namespace detail

theorem char_eq_of_toNat {c : Char} {n : Nat} (h : c.toNat = n) : c = Char.ofNat n := by
  rw [← h]
  exact (Char.ofNat_toNat c).symm

theorem hex_value_hexDigit : ∀ d, d < 16 → (hex_value (hexDigit d)).getD 0 = d := by
  decide

theorem unescape_escape_char (c : Char) (X : List Char) :
    unescape_char (escape_char c ++ X) = some (c, X) := by
  unfold escape_char
  split_ifs with h1 h2 h3 h4 h5 h6 h7 h8
  · subst h1; rfl
  · subst h2; rfl
  · rw [char_eq_of_toNat h3]; rfl
  · rw [char_eq_of_toNat h4]; rfl
  · rw [char_eq_of_toNat h5]; rfl
  · rw [char_eq_of_toNat h6]; rfl
  · rw [char_eq_of_toNat h7]; rfl
  · have e1 := hex_value_hexDigit (c.toNat / 16) (by omega)
    have e2 := hex_value_hexDigit (c.toNat % 16) (by omega)
    simp only [List.cons_append, List.nil_append, unescape_char]
    simp only [e1, e2]
    have : c.toNat / 16 * 16 + c.toNat % 16 = c.toNat := by omega
    rw [this]
    simp
  · simp [unescape_char, h2]

theorem escape_char_head (c : Char) (X : List Char) :
    ∃ h t, escape_char c ++ X = h :: t ∧ h ≠ '"' := by
  unfold escape_char
  split_ifs with h1 h2 h3 h4 h5 h6 h7 h8 <;>
    first
    | exact ⟨'\\', _, rfl, by decide⟩
    | exact ⟨c, X, rfl, h1⟩

theorem escape_inj : ∀ (s1 s2 r1 r2 : List Char),
    escape s1 ++ '"' :: r1 = escape s2 ++ '"' :: r2 → s1 = s2 ∧ r1 = r2
  | [], [], r1, r2, h => by simpa [escape] using h
  | [], c :: cs, r1, r2, h => by
    obtain ⟨x, t, hx, hne⟩ := escape_char_head c (escape cs ++ '"' :: r2)
    simp only [escape, List.nil_append, List.append_assoc] at h
    rw [hx] at h
    simp only [List.cons.injEq] at h
    exact absurd h.1.symm hne
  | c :: cs, [], r1, r2, h => by
    obtain ⟨x, t, hx, hne⟩ := escape_char_head c (escape cs ++ '"' :: r1)
    simp only [escape, List.nil_append, List.append_assoc] at h
    rw [hx] at h
    simp only [List.cons.injEq] at h
    exact absurd h.1 hne
  | c1 :: cs1, c2 :: cs2, r1, r2, h => by
    simp only [escape, List.append_assoc] at h
    have h2 := congrArg unescape_char h
    rw [unescape_escape_char, unescape_escape_char] at h2
    simp only [Option.some.injEq, Prod.mk.injEq] at h2
    obtain ⟨hc, hrest⟩ := h2
    obtain ⟨hs, hr⟩ := escape_inj cs1 cs2 r1 r2 hrest
    exact ⟨by rw [hc, hs], hr⟩

theorem digitChar_isDigit : ∀ d, d < 10 → (Nat.digitChar d).isDigit = true := by
  decide

theorem digitChar_value : ∀ d, d < 10 → (Nat.digitChar d).toNat - 48 = d := by
  decide

theorem toDigitsCore_isDigit : ∀ (fuel n : Nat) (acc : List Char),
    (∀ c ∈ acc, c.isDigit = true) → ∀ c ∈ Nat.toDigitsCore 10 fuel n acc, c.isDigit = true
  | 0, _, acc, hacc => by simpa [Nat.toDigitsCore] using hacc
  | fuel + 1, n, acc, hacc => by
    have hd := digitChar_isDigit (n % 10) (Nat.mod_lt _ (by decide))
    have hacc2 : ∀ c ∈ Nat.digitChar (n % 10) :: acc, c.isDigit = true := by
      intro c hc
      rcases List.mem_cons.1 hc with rfl | hc
      · exact hd
      · exact hacc c hc
    simp only [Nat.toDigitsCore]
    split_ifs with h
    · exact hacc2
    · exact toDigitsCore_isDigit fuel (n / 10) _ hacc2

theorem toDigitsCore_ne_nil_of_acc : ∀ (fuel n : Nat) (acc : List Char), acc ≠ [] →
    Nat.toDigitsCore 10 fuel n acc ≠ []
  | 0, _, acc, h => by simpa [Nat.toDigitsCore] using h
  | fuel + 1, n, acc, _ => by
    simp only [Nat.toDigitsCore]
    split_ifs with h
    · simp
    · exact toDigitsCore_ne_nil_of_acc fuel (n / 10) _ (by simp)

theorem toDigitsCore_ne_nil (fuel n : Nat) (acc : List Char) :
    Nat.toDigitsCore 10 (fuel + 1) n acc ≠ [] := by
  simp only [Nat.toDigitsCore]
  split_ifs with h
  · simp
  · exact toDigitsCore_ne_nil_of_acc fuel (n / 10) _ (by simp)

theorem toDigitsCore_value : ∀ (fuel n : Nat) (acc : List Char), n < fuel →
    List.foldl (fun a c => a * 10 + (c.toNat - 48)) 0 (Nat.toDigitsCore 10 fuel n acc)
      = List.foldl (fun a c => a * 10 + (c.toNat - 48)) n acc
  | 0, n, acc, h => by omega
  | fuel + 1, n, acc, h => by
    have hd := digitChar_value (n % 10) (Nat.mod_lt _ (by decide))
    simp only [Nat.toDigitsCore]
    split_ifs with h0
    · simp only [List.foldl_cons, hd]
      congr 1
      omega
    · rw [toDigitsCore_value fuel (n / 10) _ (by omega)]
      simp only [List.foldl_cons, hd]
      congr 1
      omega

theorem write_nat_isDigit (n : Nat) : ∀ c ∈ write_nat n, c.isDigit = true :=
  toDigitsCore_isDigit (n + 1) n [] (by simp)

theorem write_nat_ne_nil (n : Nat) : write_nat n ≠ [] :=
  toDigitsCore_ne_nil n n []

theorem write_nat_inj {n m : Nat} (h : write_nat n = write_nat m) : n = m := by
  have hn := toDigitsCore_value (n + 1) n [] (by omega)
  have hm := toDigitsCore_value (m + 1) m [] (by omega)
  simp only [List.foldl_nil] at hn hm
  rw [← hn, ← hm]
  exact congrArg _ h

theorem write_int_chars (i : Int) : ∀ c ∈ write_int i, c.isDigit = true ∨ c = '-' := by
  cases i with
  | ofNat n => exact fun c hc => Or.inl (write_nat_isDigit n c hc)
  | negSucc n =>
    intro c hc
    rcases List.mem_cons.1 hc with rfl | hc
    · exact Or.inr rfl
    · exact Or.inl (write_nat_isDigit _ c hc)

theorem write_int_ne_nil (i : Int) : write_int i ≠ [] := by
  cases i with
  | ofNat n => exact write_nat_ne_nil n
  | negSucc n => simp [write_int]

theorem write_int_inj {i j : Int} (h : write_int i = write_int j) : i = j := by
  cases i with
  | ofNat n =>
    cases j with
    | ofNat m => exact congrArg Int.ofNat (write_nat_inj h)
    | negSucc m =>
      exfalso
      have hne := write_nat_ne_nil n
      have hd := write_nat_isDigit n
      simp only [write_int] at h
      rw [h] at hd
      exact absurd (hd '-' (by simp)) (by decide)
  | negSucc n =>
    cases j with
    | ofNat m =>
      exfalso
      have hd := write_nat_isDigit m
      simp only [write_int] at h
      rw [← h] at hd
      exact absurd (hd '-' (by simp)) (by decide)
    | negSucc m =>
      simp only [write_int, List.cons.injEq, true_and] at h
      have := write_nat_inj h
      have : n = m := by omega
      rw [this]

theorem isDigit_not_mark {c : Char} (h : c.isDigit = true) : (c == '.' || c == 'e') = false := by
  have h1 : c ≠ '.' := by rintro rfl; exact absurd h (by decide)
  have h2 : c ≠ 'e' := by rintro rfl; exact absurd h (by decide)
  simp [h1, h2]

theorem write_int_isDoubleChar (i : Int) : ∀ c ∈ write_int i, isDoubleChar c = true := by
  intro c hc
  rcases write_int_chars i c hc with h | rfl
  · simp [isDoubleChar, h]
  · decide

theorem write_int_not_isDoubleText (i : Int) : isDoubleText (write_int i) = false := by
  have : (write_int i).any (fun c => c == '.' || c == 'e') = false := by
    rw [List.any_eq_false]
    intro c hc
    rcases write_int_chars i c hc with h | rfl
    · simp [isDigit_not_mark h]
    · decide
  simp [isDoubleText, this]

theorem at_delimiter_head {r : List Char} (h : at_delimiter r = true) :
    ∀ c t, r = c :: t → isDoubleChar c = false := by
  intro c t hr
  subst hr
  simp only [at_delimiter, Bool.or_eq_true, beq_iff_eq] at h
  rcases h with (rfl | rfl) | rfl <;> decide

/-- Two texts made of number characters and followed by delimiters coincide when the
whole texts do. -/
theorem number_span : ∀ (a b r1 r2 : List Char),
    (∀ c ∈ a, isDoubleChar c = true) → (∀ c ∈ b, isDoubleChar c = true) →
    at_delimiter r1 = true → at_delimiter r2 = true →
    a ++ r1 = b ++ r2 → a = b ∧ r1 = r2
  | [], [], r1, r2, _, _, _, _, h => ⟨rfl, by simpa using h⟩
  | [], c :: b, r1, r2, _, hb, h1, _, h => by
    exfalso
    have := at_delimiter_head h1 c (b ++ r2) (by simpa using h)
    rw [hb c (by simp)] at this
    cases this
  | c :: a, [], r1, r2, ha, _, _, h2, h => by
    exfalso
    have := at_delimiter_head h2 c (a ++ r1) (by simpa using h.symm)
    rw [ha c (by simp)] at this
    cases this
  | c :: a, d :: b, r1, r2, ha, hb, h1, h2, h => by
    simp only [List.cons_append, List.cons.injEq] at h
    obtain ⟨hab, hr⟩ := number_span a b r1 r2 (fun x hx => ha x (by simp [hx]))
      (fun x hx => hb x (by simp [hx])) h1 h2 h.2
    exact ⟨by rw [h.1, hab], hr⟩

theorem head_class_of_isDoubleChar {c : Char} (h : isDoubleChar c = true) :
    head_class c = 6 := by
  unfold head_class
  split_ifs with h1 h2 h3 h4 h5 h6
  · subst h1; exact absurd h (by decide)
  · subst h2; exact absurd h (by decide)
  · subst h3; exact absurd h (by decide)
  · subst h4; exact absurd h (by decide)
  · subst h5; exact absurd h (by decide)
  · subst h6; exact absurd h (by decide)
  · rfl

theorem doubleText_chars (d : DoubleText) : ∀ c ∈ d.text.data, isDoubleChar c = true := by
  have h := d.shape
  simp only [isDoubleText, Bool.and_eq_true, List.all_eq_true] at h
  exact h.1

theorem doubleText_ne_nil (d : DoubleText) : d.text.data ≠ [] := by
  have h := d.shape
  intro hnil
  rw [hnil] at h
  exact absurd h (by decide)

theorem doubleText_ext {d1 d2 : DoubleText} (h : d1.text.data = d2.text.data) : d1 = d2 := by
  obtain ⟨⟨t1⟩, s1⟩ := d1
  obtain ⟨⟨t2⟩, s2⟩ := d2
  simp only at h
  subst h
  rfl

/-- The first character of the text of a value tells its kind. -/
theorem write_head (v : Value) (r : List Char) :
    ∃ c t, write v ++ r = c :: t ∧ head_class c = v.tag := by
  rcases v with _ | (_ | _) | i | d | s | es | ms
  · exact ⟨'n', _, rfl, rfl⟩
  · exact ⟨'f', _, rfl, rfl⟩
  · exact ⟨'t', _, rfl, rfl⟩
  · have hne := write_int_ne_nil i
    have hch := write_int_isDoubleChar i
    simp only [write]
    cases hw : write_int i with
    | nil => exact absurd hw hne
    | cons c t =>
      rw [hw] at hch
      exact ⟨c, t ++ r, rfl, head_class_of_isDoubleChar (hch c (by simp))⟩
  · have hne := doubleText_ne_nil d
    have hch := doubleText_chars d
    simp only [write]
    cases hw : d.text.data with
    | nil => exact absurd hw hne
    | cons c t =>
      rw [hw] at hch
      exact ⟨c, t ++ r, rfl, head_class_of_isDoubleChar (hch c (by simp))⟩
  · exact ⟨'"', _, rfl, rfl⟩
  · exact ⟨'[', _, rfl, rfl⟩
  · exact ⟨Char.ofNat 123, _, rfl, rfl⟩

theorem write_tag_eq {v1 v2 : Value} {r1 r2 : List Char}
    (h : write v1 ++ r1 = write v2 ++ r2) : v1.tag = v2.tag := by
  obtain ⟨c1, t1, e1, k1⟩ := write_head v1 r1
  obtain ⟨c2, t2, e2, k2⟩ := write_head v2 r2
  rw [e1, e2] at h
  simp only [List.cons.injEq] at h
  rw [← k1, ← k2, h.1]

theorem write_head_ne (v : Value) (r : List Char) (c : Char) (t : List Char)
    (hc : head_class c = 7) : write v ++ r ≠ c :: t := by
  intro h
  obtain ⟨c1, t1, e1, k1⟩ := write_head v r
  rw [e1] at h
  simp only [List.cons.injEq] at h
  rw [h.1, hc] at k1
  rcases v with _ | (_ | _) | i | d | s | es | ms <;> simp [Value.tag] at k1

theorem write_string_inj {k1 k2 : String} {x1 x2 : List Char}
    (h : write_string k1 ++ x1 = write_string k2 ++ x2) : k1 = k2 ∧ x1 = x2 := by
  simp only [write_string, List.cons_append, List.append_assoc, List.nil_append,
    List.cons.injEq, true_and] at h
  obtain ⟨hk, hx⟩ := escape_inj _ _ _ _ h
  obtain ⟨d1⟩ := k1
  obtain ⟨d2⟩ := k2
  simp only at hk
  subst hk
  exact ⟨rfl, hx⟩

theorem write_elems_one (v : Value) (x : List Char) :
    write_elems [v] ++ x = write v ++ x := by
  simp [write_elems]

theorem write_elems_more (v w : Value) (t : List Value) (x : List Char) :
    write_elems (v :: w :: t) ++ x = write v ++ ',' :: (write_elems (w :: t) ++ x) := by
  simp [write_elems]

theorem write_members_one (k : String) (v : Value) (x : List Char) :
    write_members [(k, v)] ++ x = write_string k ++ ':' :: (write v ++ x) := by
  simp [write_members]

theorem write_members_more (k : String) (v : Value) (m : Member) (t : List Member)
    (x : List Char) :
    write_members ((k, v) :: m :: t) ++ x
      = write_string k ++ ':' :: (write v ++ ',' :: (write_members (m :: t) ++ x)) := by
  simp [write_members]

theorem write_members_head (m : Member) (t : List Member) (x : List Char) :
    ∃ y, write_members (m :: t) ++ x = '"' :: y := by
  obtain ⟨k, v⟩ := m
  cases t with
  | nil => exact ⟨_, by rw [write_members_one]; rfl⟩
  | cons m2 t2 => exact ⟨_, by rw [write_members_more]; rfl⟩

mutual
/-- The text of a value, followed by a delimiter, determines the value and what
follows. -/
theorem write_inj_aux : ∀ (v1 v2 : Value) (r1 r2 : List Char),
    at_delimiter r1 = true → at_delimiter r2 = true →
    write v1 ++ r1 = write v2 ++ r2 → v1 = v2 ∧ r1 = r2
  | .null, v2, r1, r2, _, _, h => by
    have htag := write_tag_eq h
    rcases v2 with _ | (_ | _) | i | d | s | es | ms <;> simp only [Value.tag] at htag <;>
      try omega
    simpa [write] using h
  | .bool true, v2, r1, r2, _, _, h => by
    have htag := write_tag_eq h
    rcases v2 with _ | (_ | _) | i | d | s | es | ms <;> simp only [Value.tag] at htag <;>
      try omega
    simpa [write] using h
  | .bool false, v2, r1, r2, _, _, h => by
    have htag := write_tag_eq h
    rcases v2 with _ | (_ | _) | i | d | s | es | ms <;> simp only [Value.tag] at htag <;>
      try omega
    simpa [write] using h
  | .int i, v2, r1, r2, d1, d2, h => by
    have htag := write_tag_eq h
    rcases v2 with _ | (_ | _) | j | d | s | es | ms <;> simp only [Value.tag] at htag <;>
      try omega
    · simp only [write] at h
      obtain ⟨hw, hr⟩ := number_span _ _ _ _ (write_int_isDoubleChar i)
        (write_int_isDoubleChar j) d1 d2 h
      exact ⟨by rw [write_int_inj hw], hr⟩
    · exfalso
      simp only [write] at h
      obtain ⟨hw, _⟩ := number_span _ _ _ _ (write_int_isDoubleChar i)
        (doubleText_chars d) d1 d2 h
      have h1 := write_int_not_isDoubleText i
      rw [hw, d.shape] at h1
      cases h1
  | .double d, v2, r1, r2, d1, d2, h => by
    have htag := write_tag_eq h
    rcases v2 with _ | (_ | _) | j | e | s | es | ms <;> simp only [Value.tag] at htag <;>
      try omega
    · exfalso
      simp only [write] at h
      obtain ⟨hw, _⟩ := number_span _ _ _ _ (doubleText_chars d)
        (write_int_isDoubleChar j) d1 d2 h
      have h1 := write_int_not_isDoubleText j
      rw [← hw, d.shape] at h1
      cases h1
    · simp only [write] at h
      obtain ⟨hw, hr⟩ := number_span _ _ _ _ (doubleText_chars d)
        (doubleText_chars e) d1 d2 h
      exact ⟨by rw [doubleText_ext hw], hr⟩
  | .string s, v2, r1, r2, _, _, h => by
    have htag := write_tag_eq h
    rcases v2 with _ | (_ | _) | j | e | s2 | es | ms <;> simp only [Value.tag] at htag <;>
      try omega
    simp only [write] at h
    obtain ⟨hs, hr⟩ := write_string_inj h
    exact ⟨by rw [hs], hr⟩
  | .array es1, v2, r1, r2, _, _, h => by
    have htag := write_tag_eq h
    rcases v2 with _ | (_ | _) | j | e | s2 | es2 | ms <;> simp only [Value.tag] at htag <;>
      try omega
    simp only [write, List.cons_append, List.append_assoc, List.nil_append,
      List.cons.injEq, true_and] at h
    obtain ⟨he, hr⟩ := write_elems_inj_aux es1 es2 r1 r2 h
    exact ⟨by rw [he], hr⟩
  | .object ms1, v2, r1, r2, _, _, h => by
    have htag := write_tag_eq h
    rcases v2 with _ | (_ | _) | j | e | s2 | es2 | ms2 <;> simp only [Value.tag] at htag <;>
      try omega
    simp only [write, List.cons_append, List.append_assoc, List.nil_append,
      List.cons.injEq, true_and] at h
    obtain ⟨he, hr⟩ := write_members_inj_aux ms1 ms2 r1 r2 h
    exact ⟨by rw [he], hr⟩
/-- The same for the elements of an array up to the closing bracket. -/
theorem write_elems_inj_aux : ∀ (es1 es2 : List Value) (r1 r2 : List Char),
    write_elems es1 ++ ']' :: r1 = write_elems es2 ++ ']' :: r2 → es1 = es2 ∧ r1 = r2
  | [], [], r1, r2, h => by simpa [write_elems] using h
  | [], [v], r1, r2, h => by
    exfalso
    rw [write_elems_one] at h
    exact write_head_ne v _ ']' r1 (by decide) h.symm
  | [], v :: w :: t, r1, r2, h => by
    exfalso
    rw [write_elems_more] at h
    exact write_head_ne v _ ']' r1 (by decide) h.symm
  | [v], [], r1, r2, h => by
    exfalso
    rw [write_elems_one] at h
    exact write_head_ne v _ ']' r2 (by decide) h
  | v :: w :: t, [], r1, r2, h => by
    exfalso
    rw [write_elems_more] at h
    exact write_head_ne v _ ']' r2 (by decide) h
  | [v1], [v2], r1, r2, h => by
    rw [write_elems_one, write_elems_one] at h
    obtain ⟨hv, hc⟩ := write_inj_aux v1 v2 _ _ (by rfl) (by rfl) h
    simp only [List.cons.injEq, true_and] at hc
    exact ⟨by rw [hv], hc⟩
  | [v1], v2 :: w2 :: t2, r1, r2, h => by
    exfalso
    rw [write_elems_one, write_elems_more] at h
    obtain ⟨_, hc⟩ := write_inj_aux v1 v2 _ _ (by rfl) (by rfl) h
    simp only [List.cons.injEq] at hc
    exact absurd hc.1 (by decide)
  | v1 :: w1 :: t1, [v2], r1, r2, h => by
    exfalso
    rw [write_elems_one, write_elems_more] at h
    obtain ⟨_, hc⟩ := write_inj_aux v1 v2 _ _ (by rfl) (by rfl) h
    simp only [List.cons.injEq] at hc
    exact absurd hc.1 (by decide)
  | v1 :: w1 :: t1, v2 :: w2 :: t2, r1, r2, h => by
    rw [write_elems_more, write_elems_more] at h
    obtain ⟨hv, hc⟩ := write_inj_aux v1 v2 _ _ (by rfl) (by rfl) h
    simp only [List.cons.injEq, true_and] at hc
    obtain ⟨he, hr⟩ := write_elems_inj_aux (w1 :: t1) (w2 :: t2) r1 r2 hc
    exact ⟨by rw [hv, he], hr⟩
/-- The same for the members of an object up to the closing brace. -/
theorem write_members_inj_aux : ∀ (ms1 ms2 : List Member) (r1 r2 : List Char),
    write_members ms1 ++ Char.ofNat 125 :: r1 = write_members ms2 ++ Char.ofNat 125 :: r2 →
    ms1 = ms2 ∧ r1 = r2
  | [], [], r1, r2, h => by simpa [write_members] using h
  | [], m :: t, r1, r2, h => by
    exfalso
    obtain ⟨y, hy⟩ := write_members_head m t (Char.ofNat 125 :: r2)
    rw [hy] at h
    simp only [write_members, List.nil_append, List.cons.injEq] at h
    exact absurd h.1 (by decide)
  | m :: t, [], r1, r2, h => by
    exfalso
    obtain ⟨y, hy⟩ := write_members_head m t (Char.ofNat 125 :: r1)
    rw [hy] at h
    simp only [write_members, List.nil_append, List.cons.injEq] at h
    exact absurd h.1 (by decide)
  | [(k1, v1)], [(k2, v2)], r1, r2, h => by
    rw [write_members_one, write_members_one] at h
    obtain ⟨hk, hx⟩ := write_string_inj h
    simp only [List.cons.injEq, true_and] at hx
    obtain ⟨hv, hc⟩ := write_inj_aux v1 v2 _ _ (by rfl) (by rfl) hx
    simp only [List.cons.injEq, true_and] at hc
    exact ⟨by rw [hk, hv], hc⟩
  | [(k1, v1)], (k2, v2) :: m2 :: t2, r1, r2, h => by
    exfalso
    rw [write_members_one, write_members_more] at h
    obtain ⟨_, hx⟩ := write_string_inj h
    simp only [List.cons.injEq, true_and] at hx
    obtain ⟨_, hc⟩ := write_inj_aux v1 v2 _ _ (by rfl) (by rfl) hx
    simp only [List.cons.injEq] at hc
    exact absurd hc.1 (by decide)
  | (k1, v1) :: m1 :: t1, [(k2, v2)], r1, r2, h => by
    exfalso
    rw [write_members_one, write_members_more] at h
    obtain ⟨_, hx⟩ := write_string_inj h
    simp only [List.cons.injEq, true_and] at hx
    obtain ⟨_, hc⟩ := write_inj_aux v1 v2 _ _ (by rfl) (by rfl) hx
    simp only [List.cons.injEq] at hc
    exact absurd hc.1 (by decide)
  | (k1, v1) :: m1 :: t1, (k2, v2) :: m2 :: t2, r1, r2, h => by
    rw [write_members_more, write_members_more] at h
    obtain ⟨hk, hx⟩ := write_string_inj h
    simp only [List.cons.injEq, true_and] at hx
    obtain ⟨hv, hc⟩ := write_inj_aux v1 v2 _ _ (by rfl) (by rfl) hx
    simp only [List.cons.injEq, true_and] at hc
    obtain ⟨he, hr⟩ := write_members_inj_aux (m1 :: t1) (m2 :: t2) r1 r2 hc
    exact ⟨by rw [hk, hv, he], hr⟩
end

/-- The writer never gives two trees the same text. -/
theorem to_string_injective {v1 v2 : Value} (h : to_string v1 = to_string v2) : v1 = v2 := by
  have hw : write v1 = write v2 := congrArg String.data h
  have := write_inj_aux v1 v2 [] [] rfl rfl (by simpa using hw)
  exact this.1

end detail


/-! ## Sorting only reorders -/

theorem SameUpToOrderOutsideArrays.symm {a b : Value}
    (h : SameUpToOrderOutsideArrays a b) : SameUpToOrderOutsideArrays b a := by
  induction h with
  | refl v => exact .refl v
  | trans _ _ ih1 ih2 => exact .trans ih2 ih1
  | swap pre post a b => exact .swap pre post b a
  | member pre post k _ ih => exact .member pre post k ih

theorem SameUpToOrderOutsideArrays.toSameUpToOrder {a b : Value}
    (h : SameUpToOrderOutsideArrays a b) : SameUpToOrder a b := by
  induction h with
  | refl v => exact .refl v
  | trans _ _ ih1 ih2 => exact .trans ih1 ih2
  | swap pre post a b => exact .swap pre post a b
  | member pre post k _ ih => exact .member pre post k ih

/-- Any rearrangement of the members of an object is reached by exchanges of
neighbours. -/
theorem SameUpToOrderOutsideArrays.of_perm {l1 l2 : List Member} (h : l1.Perm l2) :
    ∀ pre : List Member,
      SameUpToOrderOutsideArrays (.object (pre ++ l1)) (.object (pre ++ l2)) := by
  induction h with
  | nil => exact fun pre => .refl _
  | cons x _ ih =>
    intro pre
    have := ih (pre ++ [x])
    simpa using this
  | swap x y l => exact fun pre => .swap pre l y x
  | trans _ _ ih1 ih2 => exact fun pre => .trans (ih1 pre) (ih2 pre)

mutual
/-- What the loop body does to a member value is a reordering outside arrays. -/
theorem sort_member_value_same : ∀ v : Value,
    SameUpToOrderOutsideArrays v (sort_member_value v)
  | .null => .refl _
  | .bool _ => .refl _
  | .int _ => .refl _
  | .double _ => .refl _
  | .string _ => .refl _
  | .array _ => .refl _
  | .object ms => by
    rw [sort_member_value_object]
    have h1 := sort_loop_same ms []
    have h2 := SameUpToOrderOutsideArrays.of_perm (perm_std_sort (sort_loop ms)).symm []
    exact .trans h1 h2
/-- What the loop does to the members of an object is a reordering outside arrays. -/
theorem sort_loop_same : ∀ (ms pre : List Member),
    SameUpToOrderOutsideArrays (.object (pre ++ ms)) (.object (pre ++ sort_loop ms))
  | [], pre => .refl _
  | (k, v) :: rest, pre => by
    have h1 : SameUpToOrderOutsideArrays (.object (pre ++ (k, v) :: rest))
        (.object (pre ++ (k, sort_member_value v) :: rest)) :=
      .member pre rest k (sort_member_value_same v)
    have h2 := sort_loop_same rest (pre ++ [(k, sort_member_value v)])
    simp only [List.append_assoc, List.singleton_append] at h2
    simp only [sort_loop]
    exact .trans h1 h2
end

theorem normalize_json_ok_iff (P : Parser) (A text : String) :
    normalize_json P A = .ok text ↔
      (Parse P A).IsObject = true ∧ text = to_string (sort_member_value (Parse P A)) := by
  simp only [normalize_json, sort_recursively_eq]
  by_cases h : (Parse P A).IsObject = true
  · simp [h, eq_comm]
  · simp [h]

/-- The test "Input is case sensitive": names in capitals and in small letters give
different canonical texts. -/
theorem normalize_json_case_sensitive :
    normalize_json parse_json "\x7b\"KEY0\":0,\"KEY1\":1\x7d"
      = .ok "\x7b\"KEY0\":0,\"KEY1\":1\x7d" ∧
    normalize_json parse_json "\x7b\"key1\":1,\"key0\":0\x7d"
      = .ok "\x7b\"key0\":0,\"key1\":1\x7d" :=
  ⟨rfl, rfl⟩

/-- C8: when `normalize_json` returns the same text for two valid texts `A` and `B`,
their trees are equal up to the order of members inside objects (the members moved
even lie outside arrays); so texts whose trees differ in a value, in the case of a
letter or in the order of array elements get different canonical texts. -/
theorem C8_same_canonical_text_only_up_to_order (P : Parser) (A B text : String)
    (tA tB : Value) (hA : P (c_str A) = some tA) (hB : P (c_str B) = some tB)
    (hnA : normalize_json P A = .ok text) (hnB : normalize_json P B = .ok text) :
    SameUpToOrder tA tB ∧ SameUpToOrderOutsideArrays tA tB := by
  have eA : Parse P A = tA := by simp [Parse, hA]
  have eB : Parse P B = tB := by simp [Parse, hB]
  rw [normalize_json_ok_iff, eA] at hnA
  rw [normalize_json_ok_iff, eB] at hnB
  have hs : sort_member_value tA = sort_member_value tB :=
    to_string_injective (hnA.2.symm.trans hnB.2)
  have h1 := sort_member_value_same tA
  have h2 := (sort_member_value_same tB).symm
  rw [hs] at h1
  exact ⟨(h1.trans h2).toSameUpToOrder, h1.trans h2⟩

/-- C8 at the objects of the test "Order of keys in json does not matter". -/
theorem C8_same_canonical_text_only_up_to_order_witness :
    normalize_json parse_json "\x7b\"key0\":0,\"key1\":1\x7d"
      = .ok "\x7b\"key0\":0,\"key1\":1\x7d" ∧
    normalize_json parse_json "\x7b\"key1\":1,\"key0\":0\x7d"
      = .ok "\x7b\"key0\":0,\"key1\":1\x7d" ∧
    SameUpToOrder (.object [("key0", .int 0), ("key1", .int 1)])
      (.object [("key1", .int 1), ("key0", .int 0)]) :=
  ⟨rfl, rfl,
   (C8_same_canonical_text_only_up_to_order parse_json "\x7b\"key0\":0,\"key1\":1\x7d"
      "\x7b\"key1\":1,\"key0\":0\x7d" "\x7b\"key0\":0,\"key1\":1\x7d"
      (.object [("key0", .int 0), ("key1", .int 1)])
      (.object [("key1", .int 1), ("key0", .int 0)]) rfl rfl rfl rfl).1⟩


/-! ## Malformed text, hash, formatting, persistence -/

namespace cache

theorem make_request_malformed (P : Parser) (m p : String) (h : P (c_str p) = none) :
    make_request P m p
      = { method := m, h_params := { params := Value.null, json := "null" } } := by
  simp only [make_request, Parse, h, Option.getD_none]
  rfl

theorem make_request_of_tree (P : Parser) (m p : String) (t : Value)
    (h : P (c_str p) = some t) :
    make_request P m p = { method := m, h_params := { params := t, json := to_string t } } := by
  simp only [make_request, Parse, h, Option.getD_some]

theorem request_eq_congr {k k2 : request} (h : request_eq k k2 = true) (e : request) :
    request_eq e k = request_eq e k2 := by
  rw [request_eq_iff] at h
  simp only [request_eq, h.1, h.2]

theorem map_at_congr (m : cache_map) {k k2 : request} (h : request_eq k k2 = true) :
    map_at m k = map_at m k2 := by
  induction m with
  | nil => rfl
  | cons e rest ih => simp only [map_at, request_eq_congr h e.1, ih]

theorem get_if_congr (c : cache) {k k2 : request} (h : request_eq k k2 = true) :
    get_if c k = get_if c k2 := by
  rw [get_if_eq_map_at, get_if_eq_map_at, map_at_congr _ h]

theorem get_if_insert_eq (P : Parser) (c : cache) (m p : String) (v : string_view)
    (k : request) (h : request_eq (make_request P m p) k = true) :
    get_if (insert P c m p v).2 k = some v.chars := by
  rw [← get_if_congr _ h]
  exact lookup_insert_same P c m p v

/-- An entry that is present stays, with its value, through `lookup_or_insert`. -/
theorem get_if_lookup_or_insert {ε : Type} (P : Parser) (c : cache) (m p : String)
    (f : factory ε) (k : request) (r : response) (h : get_if c k = some r) :
    get_if (lookup_or_insert P c m p f).after k = some r := by
  cases hl : lookup P c m p with
  | some x => rw [lookup_or_insert_hit P c m p f x hl]; exact h
  | none =>
    rw [lookup_or_insert_miss P c m p f hl]
    cases f m p with
    | error e => exact h
    | ok w =>
      have hk : request_eq (make_request P m p) k = false := by
        cases hq : request_eq (make_request P m p) k
        · rfl
        · have := get_if_congr c hq
          rw [h] at this
          rw [lookup] at hl
          rw [hl] at this
          cases this
      exact (get_if_insert_other P c m p _ k hk).trans h

end cache

/-- C11 (the claim fails as stated): `[1,` and `{` are two different texts that are not
valid, and after `refresh("m", "[1,", "v")` on a fresh cache both `lookup("m", "{")` and
`lookup("m", "null")` return `v`. -/
theorem C11_malformed_texts_collide :
    parse_json "[1," = none ∧ parse_json "\x7b" = none ∧ "[1," ≠ "\x7b" ∧
    parse_json "null" = some Value.null ∧
    cache.lookup parse_json (cache.refresh parse_json cache.empty "m" "[1," "v") "m" "\x7b"
      = some "v" ∧
    cache.lookup parse_json (cache.refresh parse_json cache.empty "m" "[1," "v") "m" "null"
      = some "v" := by
  refine ⟨rfl, rfl, by decide, rfl, by decide, by decide⟩

/-- C11 (amended): all parameter texts that are not valid share the request of the valid
text `null`.  For a method `m`, a value `v` and a text `b1` that is not valid, after
`refresh(m, b1, v)` the call `lookup(m, b2)` returns `v` for every text `b2` that is not
valid, and `lookup(m, t)` returns `v` for every text `t` whose tree is the null value. -/
theorem C11_malformed_texts_share_the_null_key (P : Parser) (c : cache)
    (m v b1 : String) (hb1 : P (c_str b1) = none) :
    (∀ b2, P (c_str b2) = none →
      cache.make_request P m b2 = cache.make_request P m b1 ∧
      cache.lookup P (cache.refresh P c m b1 v) m b2 = some v) ∧
    (∀ t, P (c_str t) = some Value.null →
      request_eq (cache.make_request P m b1) (cache.make_request P m t) = true ∧
      cache.lookup P (cache.refresh P c m b1 v) m t = some v) := by
  have h1 := cache.make_request_malformed P m b1 hb1
  constructor
  · intro b2 hb2
    have h2 := cache.make_request_malformed P m b2 hb2
    refine ⟨h2.trans h1.symm, ?_⟩
    rw [cache.lookup, h2, ← h1]
    exact cache.lookup_insert_same P c m b1 _
  · intro t ht
    have h2 := cache.make_request_of_tree P m t Value.null ht
    have hq : request_eq (cache.make_request P m b1) (cache.make_request P m t) = true := by
      rw [h1, h2, cache.request_eq_iff]
      exact ⟨rfl, rfl⟩
    exact ⟨hq, cache.get_if_insert_eq P c m b1 _ _ hq⟩

/-- C11 (amended) at the texts `[1,`, `{` and `null`. -/
theorem C11_malformed_texts_share_the_null_key_witness :
    parse_json (c_str "[1,") = none ∧ parse_json (c_str "\x7b") = none ∧
    cache.lookup parse_json (cache.refresh parse_json cache.empty "m" "[1," "v") "m" "\x7b"
      = some "v" ∧
    cache.lookup parse_json (cache.refresh parse_json cache.empty "m" "[1," "v") "m" "null"
      = some "v" :=
  have h := C11_malformed_texts_share_the_null_key parse_json cache.empty "m" "v" "[1," rfl
  ⟨rfl, rfl, (h.1 "\x7b" rfl).2, (h.2 "null" rfl).2⟩

/-- C13: `request_hash` is `hash(method) XOR (hash(json) << 1)` in 64-bit unsigned
arithmetic; it reads only the method and the json text of a request, and requests that
are equal under `operator==` have the same hash. -/
theorem C13_request_hash_consistent (H : String → Nat) (a b : request)
    (hab : request_eq a b = true) :
    request_hash H a = request_hash H b ∧
    request_hash H a
      = Nat.xor (H a.method % 2 ^ 64) (2 * (H a.h_params.json % 2 ^ 64) % 2 ^ 64) ∧
    request_hash H a < 2 ^ 64 ∧
    ∀ doc : parameters,
      request_hash H { method := a.method, h_params := { params := doc, json := a.h_params.json } }
        = request_hash H a := by
  rw [cache.request_eq_iff] at hab
  have hf : ∀ r : request, request_hash H r
      = Nat.xor (H r.method % 2 ^ 64) (2 * (H r.h_params.json % 2 ^ 64) % 2 ^ 64) := by
    intro r
    simp only [request_hash, size_t_bits, Nat.shiftLeft_eq, Nat.mul_comm]
    rfl
  refine ⟨?_, hf a, ?_, fun doc => rfl⟩
  · rw [hf a, hf b, hab.1, hab.2]
  · rw [hf a]
    exact Nat.xor_lt_two_pow (Nat.mod_lt _ (by decide)) (Nat.mod_lt _ (by decide))

/-- C13 at two requests with the same method and json text and different documents. -/
theorem C13_request_hash_consistent_witness :
    request_hash String.length
        { method := "m", h_params := { params := Value.null, json := "[]" } }
      = request_hash String.length
        { method := "m", h_params := { params := Value.array [], json := "[]" } } :=
  (C13_request_hash_consistent String.length
    { method := "m", h_params := { params := Value.null, json := "[]" } }
    { method := "m", h_params := { params := Value.array [], json := "[]" } } rfl).1

/-- C17: two valid parameter texts with the same tree (they differ at most in blanks
between tokens) give equal requests, so after `refresh(m, A, v)` the call `lookup(m, B)`
returns `v`. -/
theorem C17_keys_ignore_formatting (P : Parser) (c : cache) (m v A B : String) (t : Value)
    (hA : P (c_str A) = some t) (hB : P (c_str B) = some t) :
    cache.make_request P m A = cache.make_request P m B ∧
    request_eq (cache.make_request P m A) (cache.make_request P m B) = true ∧
    cache.lookup P (cache.refresh P c m A v) m B = some v := by
  have h : cache.make_request P m A = cache.make_request P m B := by
    rw [cache.make_request_of_tree P m A t hA, cache.make_request_of_tree P m B t hB]
  refine ⟨h, by rw [h]; exact cache.request_eq_refl _, ?_⟩
  rw [cache.lookup, ← h]
  exact cache.lookup_insert_same P c m A _

/-- C17 at a parameter list written compactly and with blanks. -/
theorem C17_keys_ignore_formatting_witness :
    cache.lookup parse_json
      (cache.refresh parse_json cache.empty "aMethod" "[\x7b\"key\":\"value\"\x7d]" "R")
      "aMethod" " [ \x7b \"key\" :\t\"value\" \x7d ]\n" = some "R" :=
  (C17_keys_ignore_formatting parse_json cache.empty "aMethod" "R"
    "[\x7b\"key\":\"value\"\x7d]" " [ \x7b \"key\" :\t\"value\" \x7d ]\n"
    (.array [.object [("key", .string "value")]]) rfl rfl).2.2


theorem Op.apply_keeps {ε : Type} (P : Parser) (c : cache) (k : request) (r : response)
    (op : Op ε) (hk : cache.get_if c k = some r) :
    (∃ r2, cache.get_if (op.apply P c) k = some r2) ∧
    (op.refreshes P k = false → cache.get_if (op.apply P c) k = some r) := by
  cases op with
  | lookup m p => exact ⟨⟨r, hk⟩, fun _ => hk⟩
  | lookup_or_insert m p f =>
    have h := cache.get_if_lookup_or_insert P c m p f k r hk
    exact ⟨⟨r, h⟩, fun _ => h⟩
  | refresh m p v =>
    cases hq : request_eq (cache.make_request P m p) k with
    | true =>
      refine ⟨⟨v, cache.get_if_insert_eq P c m p _ k hq⟩, ?_⟩
      intro h
      simp only [Op.refreshes, hq] at h
      cases h
    | false =>
      have h := (cache.get_if_insert_other P c m p
        { chars := v, storage := Storage.argument } k hq).trans hk
      exact ⟨⟨r, h⟩, fun _ => h⟩

theorem run_keeps {ε : Type} (P : Parser) (k : request) (ops : List (Op ε)) :
    ∀ (c : cache) (r : response), cache.get_if c k = some r →
      (∃ r2, cache.get_if (run P c ops) k = some r2) ∧
      ((∀ op ∈ ops, op.refreshes P k = false) → cache.get_if (run P c ops) k = some r) := by
  induction ops with
  | nil => exact fun c r hk => ⟨⟨r, hk⟩, fun _ => hk⟩
  | cons op rest ih =>
    intro c r hk
    obtain ⟨⟨r2, h2⟩, hsame⟩ := Op.apply_keeps P c k r op hk
    refine ⟨(ih _ r2 h2).1, ?_⟩
    intro hno
    have h3 := hsame (hno op (by simp))
    exact (ih _ r h3).2 (fun o ho => hno o (by simp [ho]))

/-- C16: an entry that is present stays present through every operation (`lookup`,
`lookup_or_insert` with any arguments and factory, `refresh` with any arguments), and so
through every sequence of operations; its value stays the same unless one of the
operations is a `refresh` for an equal request. -/
theorem C16_no_eviction {ε : Type} (P : Parser) (c : cache) (k : request) (r : response)
    (hk : cache.get_if c k = some r) :
    (∀ op : Op ε,
      (cache.get_if (op.apply P c) k).isSome = true ∧
      (op.refreshes P k = false → cache.get_if (op.apply P c) k = some r)) ∧
    (∀ ops : List (Op ε),
      (cache.get_if (run P c ops) k).isSome = true ∧
      ((∀ op ∈ ops, op.refreshes P k = false) → cache.get_if (run P c ops) k = some r)) := by
  constructor
  · intro op
    obtain ⟨⟨r2, h2⟩, hsame⟩ := Op.apply_keeps P c k r op hk
    exact ⟨by rw [h2]; rfl, hsame⟩
  · intro ops
    obtain ⟨⟨r2, h2⟩, hsame⟩ := run_keeps P k ops c r hk
    exact ⟨by rw [h2]; rfl, hsame⟩

/-- C16 at a cache holding one entry, through a lookup, an insertion for another
request, a refresh for another method and a refresh of the entry itself. -/
theorem C16_no_eviction_witness :
    cache.get_if (cache.refresh parse_json cache.empty "m" "[1]" "v")
        (cache.make_request parse_json "m" "[1]") = some "v" ∧
    cache.get_if
        (run parse_json (cache.refresh parse_json cache.empty "m" "[1]" "v")
          [Op.lookup "m" "[2]", Op.lookup_or_insert "m" "[2]" (fixed_value "w"),
           Op.refresh "n" "[1]" "x"])
        (cache.make_request parse_json "m" "[1]") = some "v" ∧
    (cache.get_if
        (run parse_json (cache.refresh parse_json cache.empty "m" "[1]" "v")
          [Op.lookup "m" "[2]", Op.lookup_or_insert "m" "[2]" (fixed_value "w"),
           Op.refresh "m" "[ 1 ]" "x"])
        (cache.make_request parse_json "m" "[1]")).isSome = true :=
  have h := C16_no_eviction parse_json (cache.refresh parse_json cache.empty "m" "[1]" "v")
    (cache.make_request parse_json "m" "[1]") "v" (by decide)
  ⟨by decide,
   (h.2 [Op.lookup "m" "[2]", Op.lookup_or_insert "m" "[2]" (fixed_value "w"),
      Op.refresh "n" "[1]" "x"]).2 (by decide),
   (h.2 [Op.lookup "m" "[2]", Op.lookup_or_insert "m" "[2]" (fixed_value "w"),
      Op.refresh "m" "[ 1 ]" "x"]).1⟩


/-! ## Objects without arrays, sorted output, totality, idempotence -/

theorem no_arrays_members_iff (ms : List Member) :
    no_arrays_members ms = true ↔ ∀ m ∈ ms, no_arrays m.2 = true := by
  induction ms with
  | nil => simp [no_arrays_members]
  | cons m rest ih =>
    obtain ⟨k, v⟩ := m
    simp [no_arrays_members, ih]

theorem no_arrays_object (ms : List Member) :
    no_arrays (.object ms) = true ↔ ∀ m ∈ ms, no_arrays m.2 = true := by
  simp [no_arrays, no_arrays_members_iff]

/-- On trees without arrays the two notions of reordering agree. -/
theorem SameUpToOrder.outside_arrays {a b : Value} (h : SameUpToOrder a b) :
    no_arrays a = true → SameUpToOrderOutsideArrays a b ∧ no_arrays b = true := by
  induction h with
  | refl v => exact fun hn => ⟨.refl v, hn⟩
  | trans _ _ ih1 ih2 =>
    intro hn
    obtain ⟨r1, n1⟩ := ih1 hn
    obtain ⟨r2, n2⟩ := ih2 n1
    exact ⟨.trans r1 r2, n2⟩
  | swap pre post x y =>
    intro hn
    refine ⟨.swap pre post x y, ?_⟩
    rw [no_arrays_object] at hn ⊢
    intro m hm
    apply hn m
    simp only [List.mem_append, List.mem_cons] at hm ⊢
    tauto
  | member pre post k _ ih =>
    intro hn
    rw [no_arrays_object] at hn
    obtain ⟨r1, n1⟩ := ih (hn (k, _) (by simp))
    refine ⟨.member pre post k r1, ?_⟩
    rw [no_arrays_object]
    intro m hm
    simp only [List.mem_append, List.mem_cons] at hm
    rcases hm with hm | rfl | hm
    · exact hn m (by simp [hm])
    · exact n1
    · exact hn m (by simp [hm])
  | elem pre post _ _ =>
    intro hn
    simp [no_arrays] at hn

theorem keys_ascending_outside_arrays_members_iff (ms : List Member) :
    keys_ascending_outside_arrays_members ms = true ↔
      ∀ m ∈ ms, keys_ascending_outside_arrays m.2 = true := by
  induction ms with
  | nil => simp [keys_ascending_outside_arrays_members]
  | cons m rest ih =>
    obtain ⟨k, v⟩ := m
    simp [keys_ascending_outside_arrays_members, ih]

mutual
/-- What `sort_recursively` leaves behind is sorted wherever it went. -/
theorem sort_member_value_ascending : ∀ v : Value,
    keys_ascending_outside_arrays (sort_member_value v) = true
  | .null => rfl
  | .bool _ => rfl
  | .int _ => rfl
  | .double _ => rfl
  | .string _ => rfl
  | .array _ => rfl
  | .object ms => by
    rw [sort_member_value_object]
    simp only [keys_ascending_outside_arrays, Bool.and_eq_true, decide_eq_true_eq]
    refine ⟨sorted_std_sort _, ?_⟩
    rw [keys_ascending_outside_arrays_members_iff]
    intro m hm
    exact sort_loop_ascending ms m ((perm_std_sort _).mem_iff.1 hm)
/-- The same for every member after the loop. -/
theorem sort_loop_ascending : ∀ (ms : List Member), ∀ m ∈ sort_loop ms,
    keys_ascending_outside_arrays m.2 = true
  | [], m, hm => by simp [sort_loop] at hm
  | (k, v) :: rest, m, hm => by
    simp only [sort_loop, List.mem_cons] at hm
    rcases hm with rfl | hm
    · exact sort_member_value_ascending v
    · exact sort_loop_ascending rest m hm
end

theorem normalize_json_of_tree (P : Parser) (A : String) (t : Value)
    (hA : P (c_str A) = some t) :
    normalize_json P A =
      if t.IsObject then .ok (to_string (sort_member_value t))
      else .error Failure.assertion := by
  simp only [normalize_json, Parse, hA, Option.getD_some, sort_recursively_eq]
  cases t.IsObject <;> rfl


/-- C12 (the claim fails as stated), at two objects without arrays whose members are
permuted and whose canonical texts differ: `{"o":{"k":1,"k":2},"p":0}` against
`{"o":{"k":2,"k":1},"p":0}` (two members of the nested object have the same name) and
`{"n\u0000b":true,"n\u0000a":false}` against `{"n\u0000a":false,"n\u0000b":true}` (the names
are compared as C strings and both end at the NUL).  In either case the comparator
does not order the two members, and they stay as they were written. -/
theorem C12_equal_names_keep_their_order :
    (parse_json "\x7b\"o\":\x7b\"k\":1,\"k\":2\x7d,\"p\":0\x7d"
        = some (.object [("o", .object [("k", .int 1), ("k", .int 2)]), ("p", .int 0)]) ∧
     parse_json "\x7b\"o\":\x7b\"k\":2,\"k\":1\x7d,\"p\":0\x7d"
        = some (.object [("o", .object [("k", .int 2), ("k", .int 1)]), ("p", .int 0)]) ∧
     no_arrays (.object [("o", .object [("k", .int 1), ("k", .int 2)]), ("p", .int 0)])
        = true ∧
     SameUpToOrder (.object [("o", .object [("k", .int 1), ("k", .int 2)]), ("p", .int 0)])
        (.object [("o", .object [("k", .int 2), ("k", .int 1)]), ("p", .int 0)]) ∧
     normalize_json parse_json "\x7b\"o\":\x7b\"k\":1,\"k\":2\x7d,\"p\":0\x7d"
        = .ok "\x7b\"o\":\x7b\"k\":1,\"k\":2\x7d,\"p\":0\x7d" ∧
     normalize_json parse_json "\x7b\"o\":\x7b\"k\":2,\"k\":1\x7d,\"p\":0\x7d"
        = .ok "\x7b\"o\":\x7b\"k\":2,\"k\":1\x7d,\"p\":0\x7d" ∧
     normalize_json parse_json "\x7b\"o\":\x7b\"k\":1,\"k\":2\x7d,\"p\":0\x7d"
        ≠ normalize_json parse_json "\x7b\"o\":\x7b\"k\":2,\"k\":1\x7d,\"p\":0\x7d") ∧
    (parse_json "\x7b\"n\\u0000b\":true,\"n\\u0000a\":false\x7d"
        = some (.object [("n\x00b", .bool true), ("n\x00a", .bool false)]) ∧
     parse_json "\x7b\"n\\u0000a\":false,\"n\\u0000b\":true\x7d"
        = some (.object [("n\x00a", .bool false), ("n\x00b", .bool true)]) ∧
     no_arrays (.object [("n\x00b", .bool true), ("n\x00a", .bool false)]) = true ∧
     SameUpToOrder (.object [("n\x00b", .bool true), ("n\x00a", .bool false)])
        (.object [("n\x00a", .bool false), ("n\x00b", .bool true)]) ∧
     normalize_json parse_json "\x7b\"n\\u0000b\":true,\"n\\u0000a\":false\x7d"
        = .ok "\x7b\"n\\u0000b\":true,\"n\\u0000a\":false\x7d" ∧
     normalize_json parse_json "\x7b\"n\\u0000a\":false,\"n\\u0000b\":true\x7d"
        = .ok "\x7b\"n\\u0000a\":false,\"n\\u0000b\":true\x7d" ∧
     normalize_json parse_json "\x7b\"n\\u0000b\":true,\"n\\u0000a\":false\x7d"
        ≠ normalize_json parse_json "\x7b\"n\\u0000a\":false,\"n\\u0000b\":true\x7d") := by
  have differ : ∀ {x y : Except Failure String} {a b : String},
      x = .ok a → y = .ok b → a ≠ b → x ≠ y := by
    intro x y a b hx hy hab h
    rw [hx, hy] at h
    exact hab (Except.ok.inj h)
  refine ⟨⟨rfl, rfl, rfl, ?_, rfl, rfl, differ rfl rfl (by decide)⟩,
    ⟨rfl, rfl, rfl, ?_, rfl, rfl, differ rfl rfl (by decide)⟩⟩
  · exact SameUpToOrder.member [] [("p", .int 0)] "o"
      (SameUpToOrder.swap [] [] ("k", .int 1) ("k", .int 2))
  · exact SameUpToOrder.swap [] [] ("n\x00b", .bool true) ("n\x00a", .bool false)

/-- C12 (amended): for every JSON object whose member values are scalars or again such
objects, and in which the member names of every object are pairwise different as C
strings, permuting the members of the top-level object and of nested objects does not
change `normalize_json` of its text, which is the text of the key-sorted tree. -/
theorem C12_nested_reordering_distinct_names (P : Parser) (A B : String) (tA tB : Value)
    (hA : P (c_str A) = some tA) (hB : P (c_str B) = some tB)
    (hobj : tA.IsObject = true) (hna : no_arrays tA = true)
    (hd : distinct_keys tA = true) (hperm : SameUpToOrder tA tB) :
    normalize_json P A = normalize_json P B ∧
    normalize_json P A = .ok (to_string (sort_member_value tA)) := by
  have hrel := (hperm.outside_arrays hna).1
  have hs := hrel.sort_eq hd
  have ho := hrel.isObject_eq
  rw [normalize_json_of_tree P A tA hA, normalize_json_of_tree P B tB hB, ← ho, ← hs, hobj]
  exact ⟨rfl, rfl⟩

/-- C12 (amended) at the objects of the test "Order of keys in embedded object does not
matter", both nested objects and the top-level object permuted. -/
theorem C12_nested_reordering_distinct_names_witness :
    normalize_json parse_json
        "\x7b\"embedded\":\x7b\"depth2\":\x7b\"key0\":0,\"key1\":1\x7d,\"value\":0\x7d,\"value\":0\x7d"
      = normalize_json parse_json
        "\x7b\"value\":0,\"embedded\":\x7b\"value\":0,\"depth2\":\x7b\"key1\":1,\"key0\":0\x7d\x7d\x7d" ∧
    normalize_json parse_json
        "\x7b\"embedded\":\x7b\"depth2\":\x7b\"key0\":0,\"key1\":1\x7d,\"value\":0\x7d,\"value\":0\x7d"
      = .ok "\x7b\"embedded\":\x7b\"depth2\":\x7b\"key0\":0,\"key1\":1\x7d,\"value\":0\x7d,\"value\":0\x7d" := by
  have hD : SameUpToOrder (.object [("key0", .int 0), ("key1", .int 1)])
      (.object [("key1", .int 1), ("key0", .int 0)]) :=
    SameUpToOrder.swap [] [] ("key0", .int 0) ("key1", .int 1)
  have hE : SameUpToOrder
      (.object [("depth2", .object [("key0", .int 0), ("key1", .int 1)]), ("value", .int 0)])
      (.object [("value", .int 0), ("depth2", .object [("key1", .int 1), ("key0", .int 0)])]) :=
    SameUpToOrder.trans (SameUpToOrder.member [] [("value", .int 0)] "depth2" hD)
      (SameUpToOrder.swap [] []
        ("depth2", .object [("key1", .int 1), ("key0", .int 0)]) ("value", .int 0))
  have hT : SameUpToOrder
      (.object [("embedded", .object [("depth2", .object [("key0", .int 0), ("key1", .int 1)]),
          ("value", .int 0)]), ("value", .int 0)])
      (.object [("value", .int 0), ("embedded", .object [("value", .int 0),
          ("depth2", .object [("key1", .int 1), ("key0", .int 0)])])]) :=
    SameUpToOrder.trans (SameUpToOrder.member [] [("value", .int 0)] "embedded" hE)
      (SameUpToOrder.swap [] []
        ("embedded", .object [("value", .int 0),
          ("depth2", .object [("key1", .int 1), ("key0", .int 0)])]) ("value", .int 0))
  have h := C12_nested_reordering_distinct_names parse_json
    "\x7b\"embedded\":\x7b\"depth2\":\x7b\"key0\":0,\"key1\":1\x7d,\"value\":0\x7d,\"value\":0\x7d"
    "\x7b\"value\":0,\"embedded\":\x7b\"value\":0,\"depth2\":\x7b\"key1\":1,\"key0\":0\x7d\x7d\x7d"
    _ _ rfl rfl rfl rfl (by decide) hT
  exact ⟨h.1, rfl⟩


/-- C14 (the claim fails as stated): for the valid text `{"x":[{"b":1,"a":2}]}` the output of
`normalize_json` is the same text, in whose tree the object inside the array has its
members in the order `b`, `a`; and for `{"a\u0000z":1,"a\u0000b":2}` the output keeps the
order of the two names, which is descending in their characters, because the
comparator reads both names as the C string `a`. -/
theorem C14_objects_below_arrays_stay_unsorted :
    (parse_json "\x7b\"x\":[\x7b\"b\":1,\"a\":2\x7d]\x7d"
        = some (.object [("x", .array [.object [("b", .int 1), ("a", .int 2)]])]) ∧
     normalize_json parse_json "\x7b\"x\":[\x7b\"b\":1,\"a\":2\x7d]\x7d"
        = .ok (to_string (.object [("x", .array [.object [("b", .int 1), ("a", .int 2)]])])) ∧
     parse_json (to_string (.object [("x", .array [.object [("b", .int 1), ("a", .int 2)]])]))
        = some (.object [("x", .array [.object [("b", .int 1), ("a", .int 2)]])]) ∧
     keys_ascending (.object [("x", .array [.object [("b", .int 1), ("a", .int 2)]])])
        = false) ∧
    (parse_json "\x7b\"a\\u0000z\":1,\"a\\u0000b\":2\x7d"
        = some (.object [("a\x00z", .int 1), ("a\x00b", .int 2)]) ∧
     normalize_json parse_json "\x7b\"a\\u0000z\":1,\"a\\u0000b\":2\x7d"
        = .ok (to_string (.object [("a\x00z", .int 1), ("a\x00b", .int 2)])) ∧
     parse_json (to_string (.object [("a\x00z", .int 1), ("a\x00b", .int 2)]))
        = some (.object [("a\x00z", .int 1), ("a\x00b", .int 2)]) ∧
     keys_ascending (.object [("a\x00z", .int 1), ("a\x00b", .int 2)]) = false) := by
  refine ⟨⟨rfl, rfl, rfl, by decide⟩, ⟨rfl, rfl, rfl, by decide⟩⟩

/-- C14 (amended): for every valid text whose top-level value is an object,
`normalize_json` returns the text of exactly one tree; in that tree the member names of
the top-level object and of every object reached from it through member values only,
read as C strings, appear in ascending order, and the tree differs from the input
tree only by the order of members of those objects: every array, with all that lies
below it, is as in the input. -/
theorem C14_sorted_outside_arrays (P : Parser) (A : String) (tA : Value)
    (hA : P (c_str A) = some tA) (hobj : tA.IsObject = true) :
    normalize_json P A = .ok (to_string (sort_member_value tA)) ∧
    (∀ t : Value, to_string t = to_string (sort_member_value tA) →
      keys_ascending_outside_arrays t = true ∧ SameUpToOrderOutsideArrays tA t) := by
  constructor
  · rw [normalize_json_of_tree P A tA hA, hobj]
    rfl
  · intro t ht
    rw [to_string_injective ht]
    exact ⟨sort_member_value_ascending tA, sort_member_value_same tA⟩

/-- C14 (amended) at an object with a nested object and an array of objects. -/
theorem C14_sorted_outside_arrays_witness :
    normalize_json parse_json
        "\x7b\"b\":\x7b\"d\":1,\"c\":[\x7b\"z\":1,\"y\":2\x7d]\x7d,\"a\":0\x7d"
      = .ok "\x7b\"a\":0,\"b\":\x7b\"c\":[\x7b\"z\":1,\"y\":2\x7d],\"d\":1\x7d\x7d" ∧
    keys_ascending_outside_arrays
        (.object [("a", .int 0), ("b", .object [
          ("c", .array [.object [("z", .int 1), ("y", .int 2)]]), ("d", .int 1)])])
      = true :=
  have h := C14_sorted_outside_arrays parse_json
    "\x7b\"b\":\x7b\"d\":1,\"c\":[\x7b\"z\":1,\"y\":2\x7d]\x7d,\"a\":0\x7d"
    (.object [("b", .object [("d", .int 1),
        ("c", .array [.object [("z", .int 1), ("y", .int 2)]])]), ("a", .int 0)])
    rfl rfl
  ⟨h.1, (h.2 (.object [("a", .int 0), ("b", .object [
      ("c", .array [.object [("z", .int 1), ("y", .int 2)]]), ("d", .int 1)])]) rfl).1⟩

/-- C15 (the claim fails as stated): `[]`, `[{"b":1,"a":2}]` and `3` are valid texts, and on
each of them `normalize_json` ends in the assertion of `MemberBegin()`: the member
iteration of `sort_recursively` is applied to the top-level value whatever it is. -/
theorem C15_top_level_array_hits_assertion :
    parse_json "[]" = some (.array []) ∧
    normalize_json parse_json "[]" = .error Failure.assertion ∧
    parse_json "[\x7b\"b\":1,\"a\":2\x7d]"
      = some (.array [.object [("b", .int 1), ("a", .int 2)]]) ∧
    normalize_json parse_json "[\x7b\"b\":1,\"a\":2\x7d]" = .error Failure.assertion ∧
    parse_json "3" = some (.int 3) ∧
    normalize_json parse_json "3" = .error Failure.assertion :=
  ⟨rfl, rfl, rfl, rfl, rfl, rfl⟩

/-- C15 (amended): `normalize_json` returns a canonical text for every valid text whose
top-level value is an object (nested member iteration is then applied to objects
only); for a valid text whose top-level value is an array or a scalar it ends in the
assertion. -/
theorem C15_total_on_object_texts (P : Parser) (A : String) (tA : Value)
    (hA : P (c_str A) = some tA) :
    (tA.IsObject = true → normalize_json P A = .ok (to_string (sort_member_value tA))) ∧
    (tA.IsObject = false → normalize_json P A = .error Failure.assertion) := by
  rw [normalize_json_of_tree P A tA hA]
  constructor <;> intro h <;> rw [h] <;> rfl

/-- C15 (amended) at the object of the test "Order of keys in json does not matter". -/
theorem C15_total_on_object_texts_witness :
    parse_json (c_str "\x7b\"key1\":1,\"key0\":0\x7d")
      = some (.object [("key1", .int 1), ("key0", .int 0)]) ∧
    normalize_json parse_json "\x7b\"key1\":1,\"key0\":0\x7d"
      = .ok "\x7b\"key0\":0,\"key1\":1\x7d" :=
  ⟨rfl, (C15_total_on_object_texts parse_json "\x7b\"key1\":1,\"key0\":0\x7d"
    (.object [("key1", .int 1), ("key0", .int 0)]) rfl).1 rfl⟩


/-! ## Sorting a sorted tree again -/

namespace detail

theorem introsort_loop_short (comp : Member → Member → Bool) (depth_limit : Nat)
    (l : List Member) (h : l.length ≤ 16) : introsort_loop comp depth_limit l = l := by
  cases depth_limit <;> simp only [introsort_loop] <;> rw [if_neg (by omega)]

theorem takeWhile_dropWhile_none (p : Member → Bool) (l : List Member)
    (h : ∀ e ∈ l.head?, p e = false) : l.takeWhile p = [] ∧ l.dropWhile p = l := by
  cases l with
  | nil => simp
  | cons x t =>
    have hx : p x = false := h x (by simp)
    simp [List.takeWhile, List.dropWhile, hx]

/-- A member that is not below the last element of the range stays where it is. -/
theorem unguarded_linear_insert_last (val : Member) (sorted : List Member)
    (h : ∀ e ∈ sorted, (c_str e.1).data ≤ (c_str val.1).data) :
    unguarded_linear_insert json_key_cmp val sorted = sorted ++ [val] := by
  have hh : ∀ e ∈ sorted.reverse.head?, json_key_cmp val e = false := by
    intro e he
    have hm : e ∈ sorted := by
      have := List.mem_of_mem_head? he
      exact List.mem_reverse.1 this
    exact (json_key_cmp_false_iff e val).2 (h e hm)
  obtain ⟨h1, h2⟩ := takeWhile_dropWhile_none (fun e => json_key_cmp val e) _ hh
  unfold unguarded_linear_insert
  rw [h1, h2]
  simp

theorem insertion_step_last (sorted : List Member) (val : Member)
    (h : ∀ e ∈ sorted, (c_str e.1).data ≤ (c_str val.1).data) :
    insertion_step json_key_cmp sorted val = sorted ++ [val] := by
  unfold insertion_step
  split
  · rfl
  · rename_i first rest
    have hf : json_key_cmp val first = false :=
      (json_key_cmp_false_iff first val).2 (h first (by simp))
    rw [if_neg (by simp [hf])]
    exact unguarded_linear_insert_last val _ h

theorem foldl_insertion_step_of_sorted : ∀ (rest acc : List Member),
    (acc ++ rest).Sorted (fun a b => (c_str a.1).data ≤ (c_str b.1).data) →
    rest.foldl (insertion_step json_key_cmp) acc = acc ++ rest
  | [], acc, _ => by simp
  | x :: t, acc, h => by
    have hx : ∀ e ∈ acc, (c_str e.1).data ≤ (c_str x.1).data := by
      intro e he
      unfold List.Sorted at h
      rw [List.pairwise_append] at h
      exact h.2.2 e he x (by simp)
    simp only [List.foldl_cons]
    rw [insertion_step_last acc x hx]
    rw [foldl_insertion_step_of_sorted t (acc ++ [x]) (by simpa using h)]
    simp

/-- On a range of at most 16 members that is sorted already `std::sort` moves nothing. -/
theorem std_sort_of_sorted_few (l : List Member)
    (hs : l.Sorted (fun a b => (c_str a.1).data ≤ (c_str b.1).data))
    (hl : l.length ≤ 16) : std_sort json_key_cmp l = l := by
  unfold std_sort
  split
  · rfl
  · rename_i x t
    rw [introsort_loop_short _ _ _ hl]
    unfold final_insertion_sort
    rw [if_neg (by omega)]
    unfold insertion_sort
    rw [foldl_insertion_step_of_sorted _ [] (by simpa using hs)]
    simp

/-- On a sorted range of members with pairwise different names `std::sort` moves
nothing. -/
theorem std_sort_of_sorted_distinct (l : List Member)
    (hs : l.Sorted (fun a b => (c_str a.1).data ≤ (c_str b.1).data))
    (hd : (l.map (fun m => c_str m.1)).Nodup) : std_sort json_key_cmp l = l :=
  sorted_perm_unique (perm_std_sort l) (((perm_std_sort l).map _).nodup_iff.2 hd)
    (sorted_std_sort l) hs

end detail

theorem distinct_or_few_keys_members_iff (ms : List Member) :
    distinct_or_few_keys_members ms = true ↔ ∀ m ∈ ms, distinct_or_few_keys m.2 = true := by
  induction ms with
  | nil => simp [distinct_or_few_keys_members]
  | cons m rest ih =>
    obtain ⟨k, v⟩ := m
    simp [distinct_or_few_keys_members, ih]

theorem distinct_or_few_keys_object (ms : List Member) :
    distinct_or_few_keys (.object ms) = true ↔
      (ms.length ≤ 16 ∨ (ms.map (fun m => c_str m.1)).Nodup) ∧
        ∀ m ∈ ms, distinct_or_few_keys m.2 = true := by
  simp [distinct_or_few_keys, distinct_or_few_keys_members_iff]

mutual
/-- Sorting a sorted tree again changes nothing when no object outside arrays has both
more than 16 members and a repeated name. -/
theorem sort_member_value_idem : ∀ v : Value, distinct_or_few_keys v = true →
    sort_member_value (sort_member_value v) = sort_member_value v
  | .null, _ => rfl
  | .bool _, _ => rfl
  | .int _, _ => rfl
  | .double _, _ => rfl
  | .string _, _ => rfl
  | .array _, _ => rfl
  | .object ms, h => by
    obtain ⟨h1, h2⟩ := (distinct_or_few_keys_object ms).1 h
    rw [sort_member_value_object, sort_member_value_object]
    congr 1
    have hfix : sort_loop (std_sort json_key_cmp (sort_loop ms))
        = std_sort json_key_cmp (sort_loop ms) := by
      rw [sort_loop_eq_map]
      conv_rhs => rw [← List.map_id (std_sort json_key_cmp (sort_loop ms))]
      apply List.map_congr_left
      intro m hm
      exact sort_loop_fixed ms h2 m ((perm_std_sort _).mem_iff.1 hm)
    rw [hfix]
    have hp := perm_std_sort (sort_loop ms)
    rcases h1 with hl | hd
    · apply std_sort_of_sorted_few _ (sorted_std_sort _)
      rw [hp.length_eq, sort_loop_eq_map, List.length_map]
      exact hl
    · apply std_sort_of_sorted_distinct _ (sorted_std_sort _)
      rw [(hp.map _).nodup_iff, map_name_sort_loop]
      exact hd
/-- The loop body leaves every member produced by the loop as it is. -/
theorem sort_loop_fixed : ∀ (ms : List Member),
    (∀ m ∈ ms, distinct_or_few_keys m.2 = true) → ∀ m ∈ sort_loop ms,
    (m.1, sort_member_value m.2) = id m
  | [], _, m, hm => by simp [sort_loop] at hm
  | (k, v) :: rest, h, m, hm => by
    simp only [sort_loop, List.mem_cons] at hm
    rcases hm with rfl | hm
    · simp only [id, sort_member_value_idem v (h (k, v) (by simp))]
    · exact sort_loop_fixed rest (fun x hx => h x (by simp [hx])) m hm
end

/-! ## Reading the text of a tree back -/

theorem hex4_hexDigit : ∀ x, x < 16 → ∀ y, y < 16 →
    hex4 '0' '0' (hexDigit x) (hexDigit y) = some (Char.ofNat (x * 16 + y)) := by
  decide

theorem parse_string_body_escape_char (c : Char) (X s r : List Char)
    (hX : parse_string_body X = some (s, r)) :
    parse_string_body (escape_char c ++ X) = some (c :: s, r) := by
  unfold escape_char
  split_ifs with h1 h2 h3 h4 h5 h6 h7 h8
  · subst h1; simp [parse_string_body, hX]
  · subst h2; simp [parse_string_body, hX]
  · rw [char_eq_of_toNat h3]; simp [parse_string_body, hX]
  · rw [char_eq_of_toNat h4]; simp [parse_string_body, hX]
  · rw [char_eq_of_toNat h5]; simp [parse_string_body, hX]
  · rw [char_eq_of_toNat h6]; simp [parse_string_body, hX]
  · rw [char_eq_of_toNat h7]; simp [parse_string_body, hX]
  · have e := hex4_hexDigit (c.toNat / 16) (by omega) (c.toNat % 16) (by omega)
    have : c.toNat / 16 * 16 + c.toNat % 16 = c.toNat := by omega
    rw [this, Char.ofNat_toNat] at e
    simp [parse_string_body, hX, e]
  · have h32 : ¬ c.toNat < 32 := h8
    simp only [List.singleton_append]
    rw [parse_string_body]
    · simp [hX, h32]
    all_goals first | exact h1 | (intros; simp_all)

theorem parse_string_body_escape : ∀ (s r : List Char),
    parse_string_body (escape s ++ '"' :: r) = some (s, r)
  | [], r => by simp [escape, parse_string_body]
  | c :: cs, r => by
    simp only [escape, List.append_assoc]
    exact parse_string_body_escape_char c _ cs r (parse_string_body_escape cs r)

theorem parse_digits_append : ∀ (ds : List Char) (acc : Nat) (r : List Char),
    (∀ c ∈ ds, c.isDigit = true) → (∀ c ∈ r.head?, c.isDigit = false) →
    parse_digits acc (ds ++ r) = (List.foldl (fun a c => a * 10 + (c.toNat - 48)) acc ds, r)
  | [], acc, [], _, _ => by simp [parse_digits]
  | [], acc, c :: r, _, hr => by
    have : c.isDigit = false := hr c (by simp)
    simp [parse_digits, this]
  | d :: ds, acc, r, hd, hr => by
    have h1 : d.isDigit = true := hd d (by simp)
    simp only [List.cons_append, parse_digits, h1, if_true, List.foldl_cons]
    exact parse_digits_append ds _ r (fun c hc => hd c (by simp [hc])) hr

theorem digitChar_ne_zero : ∀ d, d < 10 → 0 < d → Nat.digitChar d ≠ '0' := by
  decide

theorem toDigitsCore_head : ∀ (fuel n : Nat) (acc : List Char), n < fuel → 0 < n →
    ∀ d t, Nat.toDigitsCore 10 fuel n acc = d :: t → d ≠ '0'
  | 0, n, acc, h, _ => by omega
  | fuel + 1, n, acc, h, hn => by
    simp only [Nat.toDigitsCore]
    split_ifs with h0
    · intro d t e
      simp only [List.cons.injEq] at e
      rw [← e.1]
      exact digitChar_ne_zero (n % 10) (Nat.mod_lt _ (by decide)) (by omega)
    · exact toDigitsCore_head fuel (n / 10) _ (by omega) (by omega)

theorem at_delimiter_cases {r : List Char} (h : at_delimiter r = true) :
    r = [] ∨ ∃ c t, r = c :: t ∧ (c = ',' ∨ c = ']' ∨ c = Char.ofNat 125) := by
  cases r with
  | nil => exact Or.inl rfl
  | cons c t =>
    simp only [at_delimiter, Bool.or_eq_true, beq_iff_eq] at h
    exact Or.inr ⟨c, t, rfl, by tauto⟩

theorem parse_nat_tail (p : Nat × List Char) (hr : at_delimiter p.2 = true) :
    (match p.2 with
      | d :: _ => if d = '.' ∨ d = 'e' ∨ d = 'E' then none else some p
      | [] => some p) = some p := by
  obtain ⟨n, r⟩ := p
  rcases at_delimiter_cases hr with h | ⟨c, t, h, hc⟩
  · simp only at h
    subst h
    rfl
  · simp only at h
    subst h
    rcases hc with rfl | rfl | rfl <;> simp

theorem parse_nat_write_nat (n : Nat) (r : List Char) (hr : at_delimiter r = true) :
    parse_nat (write_nat n ++ r) = some (n, r) := by
  have hr1 : ∀ c ∈ r.head?, c.isDigit = false := by
    rcases at_delimiter_cases hr with rfl | ⟨c, t, rfl, hc⟩
    · simp
    · intro x hx
      simp only [List.head?_cons, Option.mem_def, Option.some.injEq] at hx
      subst hx
      rcases hc with rfl | rfl | rfl <;> decide
  have hd := write_nat_isDigit n
  have hv := toDigitsCore_value (n + 1) n [] (by omega)
  have hh := toDigitsCore_head (n + 1) n [] (by omega)
  have hne := write_nat_ne_nil n
  unfold write_nat Nat.toDigits at *
  cases hw : Nat.toDigitsCore 10 (n + 1) n [] with
  | nil => exact absurd hw hne
  | cons d ds =>
    rw [hw] at hd hv
    have hdd : d.isDigit = true := hd d (by simp)
    simp only [List.foldl_cons, List.foldl_nil, Nat.zero_mul, Nat.zero_add] at hv
    simp only [List.cons_append, parse_nat, hdd, if_true]
    by_cases h0 : d = '0'
    · have hn0 : n = 0 := by
        by_contra hn
        exact hh (by omega) d ds hw h0
      subst hn0
      have hds : ds = [] := by
        have : Nat.toDigitsCore 10 (0 + 1) 0 [] = ['0'] := by decide
        rw [this] at hw
        simp only [List.cons.injEq] at hw
        exact hw.2.symm
      subst hds
      simp only [h0, if_true, List.nil_append]
      exact parse_nat_tail (0, r) hr
    · rw [if_neg h0, parse_digits_append ds _ r (fun c hc => hd c (by simp [hc])) hr1, hv]
      exact parse_nat_tail (n, r) hr

theorem parse_value_null (f : Nat) (r : List Char) :
    parse_value (f + 1) ('n' :: 'u' :: 'l' :: 'l' :: r) = some (Value.null, r) := by
  simp [parse_value]

theorem parse_value_true (f : Nat) (r : List Char) :
    parse_value (f + 1) ('t' :: 'r' :: 'u' :: 'e' :: r) = some (Value.bool true, r) := by
  simp [parse_value]

theorem parse_value_false (f : Nat) (r : List Char) :
    parse_value (f + 1) ('f' :: 'a' :: 'l' :: 's' :: 'e' :: r) = some (Value.bool false, r) := by
  simp [parse_value]

theorem parse_value_string (f : Nat) (X s r : List Char)
    (h : parse_string_body X = some (s, r)) :
    parse_value (f + 1) ('"' :: X) = some (Value.string ⟨s⟩, r) := by
  simp [parse_value, h]

theorem parse_value_array_nil (f : Nat) (r : List Char) :
    parse_value (f + 1) ('[' :: ']' :: r) = some (Value.array [], r) := by
  simp [parse_value, skip_ws]

theorem parse_value_neg (f : Nat) (X : List Char) (n : Nat) (r : List Char)
    (h : parse_nat X = some (n, r)) (hn : n ≤ 2 ^ 63) :
    parse_value (f + 1) ('-' :: X) = some (Value.int (-(n : Int)), r) := by
  have e : (2 : Nat) ^ 63 = 9223372036854775808 := by norm_num
  rw [e] at hn
  simp [parse_value, h, hn]

theorem parse_value_object_nil (f : Nat) (r : List Char) :
    parse_value (f + 1) (Char.ofNat 123 :: Char.ofNat 125 :: r) = some (Value.object [], r) := by
  simp [parse_value, skip_ws]

theorem parse_value_object (f : Nat) (X : List Char) (ms : List Member) (r : List Char)
    (h : parse_members f ('"' :: X) = some (ms, r)) :
    parse_value (f + 1) (Char.ofNat 123 :: '"' :: X) = some (Value.object ms, r) := by
  simp [parse_value, skip_ws, h]

theorem isDigit_cases {d : Char} (h : d.isDigit = true) :
    d = '0' ∨ d = '1' ∨ d = '2' ∨ d = '3' ∨ d = '4' ∨ d = '5' ∨ d = '6' ∨ d = '7'
      ∨ d = '8' ∨ d = '9' := by
  have h1 : 48 ≤ d.toNat ∧ d.toNat ≤ 57 := by
    simp only [Char.isDigit, Bool.and_eq_true, decide_eq_true_eq] at h
    exact ⟨h.1, h.2⟩
  obtain ⟨h2, h3⟩ := h1
  rw [← Char.ofNat_toNat d]
  generalize d.toNat = k at h2 h3
  interval_cases k <;> decide

theorem parse_value_digit (f : Nat) (d : Char) (X : List Char) (n : Nat) (r : List Char)
    (hd : d.isDigit = true) (h : parse_nat (d :: X) = some (n, r)) (hn : n < 2 ^ 64) :
    parse_value (f + 1) (d :: X) = some (Value.int n, r) := by
  have e : (2 : Nat) ^ 64 = 18446744073709551616 := by norm_num
  rw [e] at hn
  rcases isDigit_cases hd with rfl | rfl | rfl | rfl | rfl | rfl | rfl | rfl | rfl | rfl <;>
    simp [parse_value, h, hn]

theorem skip_ws_cons {c : Char} (t : List Char)
    (h : ¬ (c = ' ' ∨ c = '\n' ∨ c = '\r' ∨ c = '\t')) : skip_ws (c :: t) = c :: t := by
  simp only [skip_ws, if_neg h]

theorem write_head_cases (v : Value) (r : List Char) :
    ∃ c t, write v ++ r = c :: t ∧ skip_ws (c :: t) = c :: t ∧ c ≠ ']' ∧ c ≠ Char.ofNat 125 := by
  obtain ⟨c, t, e, k⟩ := write_head v r
  have h7 : head_class c ≠ 7 := by
    rw [k]
    rcases v with _ | (_ | _) | i | d | s | es | ms <;> simp [Value.tag]
  refine ⟨c, t, e, skip_ws_cons t ?_, ?_, ?_⟩
  · rintro (rfl | rfl | rfl | rfl) <;> exact h7 (by decide)
  · rintro rfl; exact h7 (by decide)
  · rintro rfl; exact h7 (by decide)

theorem skip_ws_write (v : Value) (r : List Char) : skip_ws (write v ++ r) = write v ++ r := by
  obtain ⟨c, t, e, h, _, _⟩ := write_head_cases v r
  rw [e, h]

theorem parse_value_array (f : Nat) (v : Value) (X : List Char) (es : List Value)
    (r : List Char) (h : parse_elems f (write v ++ X) = some (es, r)) :
    parse_value (f + 1) ('[' :: (write v ++ X)) = some (Value.array es, r) := by
  obtain ⟨c, t, e, hs, hc, _⟩ := write_head_cases v X
  rw [e] at h ⊢
  simp only [parse_value, hs]
  split
  · rename_i heq
    simp only [List.cons.injEq] at heq
    exact absurd heq.1 hc
  · simp [h]

theorem parse_elems_last (f : Nat) (X : List Char) (v : Value) (r : List Char)
    (h : parse_value f X = some (v, ']' :: r)) :
    parse_elems (f + 1) X = some ([v], r) := by
  simp [parse_elems, h, skip_ws]

theorem parse_elems_more (f : Nat) (X Y : List Char) (v : Value) (vs : List Value)
    (r : List Char) (h : parse_value f X = some (v, ',' :: Y)) (hY : skip_ws Y = Y)
    (h2 : parse_elems f Y = some (vs, r)) :
    parse_elems (f + 1) X = some (v :: vs, r) := by
  simp [parse_elems, h, skip_ws, hY, h2]

theorem parse_members_last (f : Nat) (K k X : List Char) (v : Value) (r : List Char)
    (hk : parse_string_body K = some (k, ':' :: X)) (hX : skip_ws X = X)
    (h : parse_value f X = some (v, Char.ofNat 125 :: r)) :
    parse_members (f + 1) ('"' :: K) = some ([(⟨k⟩, v)], r) := by
  simp [parse_members, hk, skip_ws, hX, h]

theorem parse_members_more (f : Nat) (K k X Y : List Char) (v : Value) (ms : List Member)
    (r : List Char) (hk : parse_string_body K = some (k, ':' :: X)) (hX : skip_ws X = X)
    (h : parse_value f X = some (v, ',' :: Y)) (hY : skip_ws Y = Y)
    (h2 : parse_members f Y = some (ms, r)) :
    parse_members (f + 1) ('"' :: K) = some ((⟨k⟩, v) :: ms, r) := by
  simp [parse_members, hk, skip_ws, hX, h, hY, h2]

theorem skip_ws_write_elems (v : Value) (t : List Value) (X : List Char) :
    skip_ws (write_elems (v :: t) ++ X) = write_elems (v :: t) ++ X := by
  cases t with
  | nil => rw [write_elems_one]; exact skip_ws_write v X
  | cons w t => rw [write_elems_more]; exact skip_ws_write v _

theorem skip_ws_write_members (m : Member) (t : List Member) (X : List Char) :
    skip_ws (write_members (m :: t) ++ X) = write_members (m :: t) ++ X := by
  obtain ⟨k, v⟩ := m
  cases t with
  | nil => rw [write_members_one]; rfl
  | cons w t => rw [write_members_more]; rfl

theorem write_elems_length_one (v : Value) :
    (write_elems [v]).length = (write v).length := by
  simp [write_elems]

theorem write_elems_length_more (v w : Value) (t : List Value) :
    (write_elems (v :: w :: t)).length
      = (write v).length + 1 + (write_elems (w :: t)).length := by
  simp [write_elems]
  omega

theorem write_members_length_one (k : String) (v : Value) :
    (write_members [(k, v)]).length = (write_string k).length + 1 + (write v).length := by
  simp [write_members]
  omega

theorem write_members_length_more (k : String) (v : Value) (m : Member) (t : List Member) :
    (write_members ((k, v) :: m :: t)).length
      = (write_string k).length + 1 + (write v).length + 1
        + (write_members (m :: t)).length := by
  simp [write_members]
  omega

mutual
/-- Reading back the text of a tree of the fragment gives the tree. -/
theorem parse_value_write : ∀ (v : Value) (fuel : Nat) (r : List Char),
    in_fragment v = true → at_delimiter r = true → 2 * (write v).length ≤ fuel →
    parse_value fuel (write v ++ r) = some (v, r)
  | .null, fuel, r, _, _, hf => by
    obtain ⟨f, rfl⟩ : ∃ f, fuel = f + 1 := ⟨fuel - 1, by simp [write] at hf; omega⟩
    exact parse_value_null f r
  | .bool true, fuel, r, _, _, hf => by
    obtain ⟨f, rfl⟩ : ∃ f, fuel = f + 1 := ⟨fuel - 1, by simp [write] at hf; omega⟩
    exact parse_value_true f r
  | .bool false, fuel, r, _, _, hf => by
    obtain ⟨f, rfl⟩ : ∃ f, fuel = f + 1 := ⟨fuel - 1, by simp [write] at hf; omega⟩
    exact parse_value_false f r
  | .int (.ofNat n), fuel, r, hi, hr, hf => by
    have hlen : 0 < (write_nat n).length := List.length_pos.2 (write_nat_ne_nil n)
    obtain ⟨f, rfl⟩ : ∃ f, fuel = f + 1 :=
      ⟨fuel - 1, by simp only [write, write_int] at hf; omega⟩
    have hd := write_nat_isDigit n
    have hp := parse_nat_write_nat n r hr
    have hn : n < 2 ^ 64 := by simpa [in_fragment] using hi
    simp only [write, write_int]
    cases hw : write_nat n with
    | nil => exact absurd hw (write_nat_ne_nil n)
    | cons d ds =>
      rw [hw] at hd hp
      exact parse_value_digit f d (ds ++ r) n r (hd d (by simp)) hp hn
  | .int (.negSucc n), fuel, r, hi, hr, hf => by
    obtain ⟨f, rfl⟩ : ∃ f, fuel = f + 1 :=
      ⟨fuel - 1, by simp only [write, write_int, List.length_cons] at hf; omega⟩
    have hn : n + 1 ≤ 2 ^ 63 := by simpa [in_fragment] using hi
    exact parse_value_neg f _ (n + 1) r (parse_nat_write_nat (n + 1) r hr) hn
  | .double _, _, _, hi, _, _ => by simp [in_fragment] at hi
  | .string s, fuel, r, _, _, hf => by
    obtain ⟨f, rfl⟩ : ∃ f, fuel = f + 1 :=
      ⟨fuel - 1, by simp [write, write_string] at hf; omega⟩
    have h := parse_value_string f _ s.data r (parse_string_body_escape s.data r)
    simpa [write, write_string] using h
  | .array [], fuel, r, _, _, hf => by
    obtain ⟨f, rfl⟩ : ∃ f, fuel = f + 1 := ⟨fuel - 1, by simp [write] at hf; omega⟩
    exact parse_value_array_nil f r
  | .array [v], fuel, r, hi, _, hf => by
    simp only [write, List.length_cons, List.length_append, List.length_singleton] at hf
    obtain ⟨f, rfl⟩ : ∃ f, fuel = f + 1 := ⟨fuel - 1, by omega⟩
    have h := parse_elems_write [v] f r (by simp) (by simpa [in_fragment] using hi) (by omega)
    rw [write_elems_one] at h
    have h2 := parse_value_array f v _ _ r h
    simpa [write, write_elems] using h2
  | .array (v :: w :: t), fuel, r, hi, _, hf => by
    simp only [write, List.length_cons, List.length_append, List.length_singleton] at hf
    obtain ⟨f, rfl⟩ : ∃ f, fuel = f + 1 := ⟨fuel - 1, by omega⟩
    have h := parse_elems_write (v :: w :: t) f r (by simp)
      (by simpa [in_fragment] using hi) (by omega)
    rw [write_elems_more] at h
    have h2 := parse_value_array f v _ _ r h
    simpa [write, write_elems] using h2
  | .object [], fuel, r, _, _, hf => by
    obtain ⟨f, rfl⟩ : ∃ f, fuel = f + 1 := ⟨fuel - 1, by simp [write] at hf; omega⟩
    exact parse_value_object_nil f r
  | .object [(k, v)], fuel, r, hi, _, hf => by
    simp only [write, List.length_cons, List.length_append, List.length_singleton] at hf
    obtain ⟨f, rfl⟩ : ∃ f, fuel = f + 1 := ⟨fuel - 1, by omega⟩
    have h := parse_members_write [(k, v)] f r (by simp)
      (by simpa [in_fragment] using hi) (by omega)
    rw [write_members_one] at h
    have h2 := parse_value_object f _ _ r h
    simpa [write, write_members, write_string] using h2
  | .object ((k, v) :: m :: t), fuel, r, hi, _, hf => by
    simp only [write, List.length_cons, List.length_append, List.length_singleton] at hf
    obtain ⟨f, rfl⟩ : ∃ f, fuel = f + 1 := ⟨fuel - 1, by omega⟩
    have h := parse_members_write ((k, v) :: m :: t) f r (by simp)
      (by simpa [in_fragment] using hi) (by omega)
    rw [write_members_more] at h
    have h2 := parse_value_object f _ _ r h
    simpa [write, write_members, write_string] using h2
/-- The same for the elements of an array up to the closing bracket. -/
theorem parse_elems_write : ∀ (es : List Value) (fuel : Nat) (r : List Char),
    es ≠ [] → in_fragment_elems es = true → 2 * (write_elems es).length + 1 ≤ fuel →
    parse_elems fuel (write_elems es ++ ']' :: r) = some (es, r)
  | [], _, _, h, _, _ => absurd rfl h
  | [v], fuel, r, _, hi, hf => by
    rw [write_elems_length_one] at hf
    obtain ⟨f, rfl⟩ : ∃ f, fuel = f + 1 := ⟨fuel - 1, by omega⟩
    simp only [in_fragment_elems, Bool.and_true] at hi
    rw [write_elems_one]
    exact parse_elems_last f _ v r (parse_value_write v f (']' :: r) hi (by rfl) (by omega))
  | v :: w :: t, fuel, r, _, hi, hf => by
    rw [write_elems_length_more] at hf
    obtain ⟨f, rfl⟩ : ∃ f, fuel = f + 1 := ⟨fuel - 1, by omega⟩
    rw [in_fragment_elems, Bool.and_eq_true] at hi
    rw [write_elems_more]
    exact parse_elems_more f _ _ v (w :: t) r
      (parse_value_write v f _ hi.1 (by rfl) (by omega))
      (skip_ws_write_elems w t _)
      (parse_elems_write (w :: t) f r (by simp) hi.2 (by omega))
/-- The same for the members of an object up to the closing brace. -/
theorem parse_members_write : ∀ (ms : List Member) (fuel : Nat) (r : List Char),
    ms ≠ [] → in_fragment_members ms = true → 2 * (write_members ms).length + 1 ≤ fuel →
    parse_members fuel (write_members ms ++ Char.ofNat 125 :: r) = some (ms, r)
  | [], _, _, h, _, _ => absurd rfl h
  | [(k, v)], fuel, r, _, hi, hf => by
    rw [write_members_length_one] at hf
    obtain ⟨f, rfl⟩ : ∃ f, fuel = f + 1 := ⟨fuel - 1, by omega⟩
    simp only [in_fragment_members, Bool.and_true] at hi
    rw [write_members_one]
    have hk := parse_string_body_escape k.data (':' :: (write v ++ Char.ofNat 125 :: r))
    have h := parse_members_last f _ k.data _ v r hk (skip_ws_write v _)
      (parse_value_write v f _ hi (by rfl) (by omega))
    simpa [write_string] using h
  | (k, v) :: m :: t, fuel, r, _, hi, hf => by
    rw [write_members_length_more] at hf
    obtain ⟨f, rfl⟩ : ∃ f, fuel = f + 1 := ⟨fuel - 1, by omega⟩
    rw [in_fragment_members, Bool.and_eq_true] at hi
    rw [write_members_more]
    have hk := parse_string_body_escape k.data
      (':' :: (write v ++ ',' :: (write_members (m :: t) ++ Char.ofNat 125 :: r)))
    have h := parse_members_more f _ k.data _ _ v (m :: t) r hk (skip_ws_write v _)
      (parse_value_write v f _ hi.1 (by rfl) (by omega))
      (skip_ws_write_members m t _)
      (parse_members_write (m :: t) f r (by simp) hi.2 (by omega))
    simpa [write_string] using h
end

theorem in_fragment_neg (n : Nat) (h : n ≤ 2 ^ 63) :
    in_fragment (Value.int (-(n : Int))) = true := by
  cases n with
  | zero => simp [in_fragment]
  | succ m =>
    have e : -((m + 1 : Nat) : Int) = Int.negSucc m := rfl
    rw [e]
    simpa [in_fragment] using h

theorem in_fragment_nat (n : Nat) (h : n < 2 ^ 64) :
    in_fragment (Value.int (n : Int)) = true := by
  have e : (n : Int) = Int.ofNat n := rfl
  rw [e]
  simpa [in_fragment] using h

mutual
/-- What the reference parser returns lies in its fragment. -/
theorem parse_value_in_fragment : ∀ (fuel : Nat) (cs : List Char) (v : Value) (r : List Char),
    parse_value fuel cs = some (v, r) → in_fragment v = true
  | 0, _, _, _, h => by simp [parse_value] at h
  | fuel + 1, cs, v, r, h => by
    simp only [parse_value] at h
    repeat' split at h
    all_goals (try simp only [Option.some.injEq, Prod.mk.injEq, reduceCtorEq] at h)
    all_goals (obtain ⟨h1, h2⟩ := h; subst h1; subst h2)
    all_goals first
      | rfl
      | exact in_fragment_neg _ (by assumption)
      | exact in_fragment_nat _ (by assumption)
      | (simp only [in_fragment]; exact parse_elems_in_fragment fuel _ _ _ (by assumption))
      | (simp only [in_fragment]; exact parse_members_in_fragment fuel _ _ _ (by assumption))
theorem parse_elems_in_fragment : ∀ (fuel : Nat) (cs : List Char) (es : List Value)
    (r : List Char), parse_elems fuel cs = some (es, r) → in_fragment_elems es = true
  | 0, _, _, _, h => by simp [parse_elems] at h
  | fuel + 1, cs, v, r, h => by
    simp only [parse_elems] at h
    repeat' split at h
    all_goals (try simp only [Option.some.injEq, Prod.mk.injEq, reduceCtorEq] at h)
    all_goals (obtain ⟨h1, h2⟩ := h; subst h1; subst h2)
    all_goals simp only [in_fragment_elems, Bool.and_eq_true]
    · exact ⟨parse_value_in_fragment fuel _ _ _ (by assumption),
        parse_elems_in_fragment fuel _ _ _ (by assumption)⟩
    · exact ⟨parse_value_in_fragment fuel _ _ _ (by assumption), trivial⟩
theorem parse_members_in_fragment : ∀ (fuel : Nat) (cs : List Char) (ms : List Member)
    (r : List Char), parse_members fuel cs = some (ms, r) → in_fragment_members ms = true
  | 0, _, _, _, h => by simp [parse_members] at h
  | fuel + 1, cs, v, r, h => by
    simp only [parse_members] at h
    repeat' split at h
    all_goals (try simp only [Option.some.injEq, Prod.mk.injEq, reduceCtorEq] at h)
    all_goals (obtain ⟨h1, h2⟩ := h; subst h1; subst h2)
    all_goals simp only [in_fragment_members, Bool.and_eq_true]
    · exact ⟨parse_value_in_fragment fuel _ _ _ (by assumption),
        parse_members_in_fragment fuel _ _ _ (by assumption)⟩
    · exact ⟨parse_value_in_fragment fuel _ _ _ (by assumption), trivial⟩
end

theorem hexDigit_ne_nul : ∀ d, d < 16 → hexDigit d ≠ Char.ofNat 0 := by
  decide

theorem escape_char_no_nul (c : Char) : ∀ x ∈ escape_char c, x ≠ Char.ofNat 0 := by
  unfold escape_char
  split_ifs with h1 h2 h3 h4 h5 h6 h7 h8
  · decide
  · decide
  · decide
  · decide
  · decide
  · decide
  · decide
  · intro x hx
    simp only [List.mem_cons, List.mem_singleton, List.not_mem_nil, or_false] at hx
    rcases hx with rfl | rfl | rfl | rfl | rfl | rfl
    · decide
    · decide
    · decide
    · decide
    · exact hexDigit_ne_nul _ (by omega)
    · exact hexDigit_ne_nul _ (by omega)
  · intro x hx
    simp only [List.mem_singleton] at hx
    subst hx
    intro h0
    rw [h0] at h8
    exact h8 (by decide)

theorem escape_no_nul : ∀ (s : List Char), ∀ x ∈ escape s, x ≠ Char.ofNat 0
  | [], x, hx => by simp [escape] at hx
  | c :: cs, x, hx => by
    simp only [escape, List.mem_append] at hx
    rcases hx with hx | hx
    · exact escape_char_no_nul c x hx
    · exact escape_no_nul cs x hx

theorem write_string_no_nul (s : String) : ∀ x ∈ write_string s, x ≠ Char.ofNat 0 := by
  intro x hx
  simp only [write_string, List.mem_cons, List.mem_append, List.mem_singleton,
    List.not_mem_nil, or_false] at hx
  rcases hx with rfl | hx | rfl
  · decide
  · exact escape_no_nul s.data x hx
  · decide

theorem isDoubleChar_ne_nul {c : Char} (h : isDoubleChar c = true) : c ≠ Char.ofNat 0 := by
  rintro rfl
  exact absurd h (by decide)

mutual
/-- The writer emits no NUL: a NUL inside a string is written as an escape. -/
theorem write_no_nul : ∀ (v : Value), ∀ x ∈ write v, x ≠ Char.ofNat 0
  | .null => by decide
  | .bool true => by decide
  | .bool false => by decide
  | .int i => fun x hx => isDoubleChar_ne_nul (write_int_isDoubleChar i x hx)
  | .double d => fun x hx => isDoubleChar_ne_nul (doubleText_chars d x hx)
  | .string s => write_string_no_nul s
  | .array es => by
    intro x hx
    simp only [write, List.mem_cons, List.mem_append, List.mem_singleton,
      List.not_mem_nil, or_false] at hx
    rcases hx with rfl | hx | rfl
    · decide
    · exact write_elems_no_nul es x hx
    · decide
  | .object ms => by
    intro x hx
    simp only [write, List.mem_cons, List.mem_append, List.mem_singleton,
      List.not_mem_nil, or_false] at hx
    rcases hx with rfl | hx | rfl
    · decide
    · exact write_members_no_nul ms x hx
    · decide
/-- The same for the elements of an array. -/
theorem write_elems_no_nul : ∀ (es : List Value), ∀ x ∈ write_elems es, x ≠ Char.ofNat 0
  | [] => by simp [write_elems]
  | [v] => by
    intro x hx
    simp only [write_elems] at hx
    exact write_no_nul v x hx
  | v :: w :: t => by
    intro x hx
    simp only [write_elems, List.mem_append, List.mem_cons] at hx
    rcases hx with hx | rfl | hx
    · exact write_no_nul v x hx
    · decide
    · exact write_elems_no_nul (w :: t) x hx
/-- The same for the members of an object. -/
theorem write_members_no_nul : ∀ (ms : List Member), ∀ x ∈ write_members ms, x ≠ Char.ofNat 0
  | [] => by simp [write_members]
  | [(k, v)] => by
    intro x hx
    simp only [write_members, List.mem_append, List.mem_cons] at hx
    rcases hx with hx | rfl | hx
    · exact write_string_no_nul k x hx
    · decide
    · exact write_no_nul v x hx
  | (k, v) :: m :: t => by
    intro x hx
    have e : write_members ((k, v) :: m :: t)
        = write_string k ++ ':' :: (write v ++ ',' :: write_members (m :: t)) := by
      simp [write_members]
    rw [e] at hx
    simp only [List.mem_append, List.mem_cons] at hx
    rcases hx with hx | rfl | hx | rfl | hx
    · exact write_string_no_nul k x hx
    · decide
    · exact write_no_nul v x hx
    · decide
    · exact write_members_no_nul (m :: t) x hx
end

theorem in_fragment_members_iff (ms : List Member) :
    in_fragment_members ms = true ↔ ∀ m ∈ ms, in_fragment m.2 = true := by
  induction ms with
  | nil => simp [in_fragment_members]
  | cons m rest ih =>
    obtain ⟨k, v⟩ := m
    simp [in_fragment_members, ih]

mutual
/-- Sorting does not leave the fragment. -/
theorem sort_member_value_in_fragment : ∀ v : Value, in_fragment v = true →
    in_fragment (sort_member_value v) = true
  | .null, h => h
  | .bool _, h => h
  | .int _, h => h
  | .double _, h => h
  | .string _, h => h
  | .array _, h => h
  | .object ms, h => by
    rw [sort_member_value_object]
    simp only [in_fragment] at h ⊢
    rw [in_fragment_members_iff]
    intro m hm
    exact sort_loop_in_fragment ms h m ((perm_std_sort _).mem_iff.1 hm)
/-- The same for every member after the loop. -/
theorem sort_loop_in_fragment : ∀ (ms : List Member), in_fragment_members ms = true →
    ∀ m ∈ sort_loop ms, in_fragment m.2 = true
  | [], _, m, hm => by simp [sort_loop] at hm
  | (k, v) :: rest, h, m, hm => by
    simp only [in_fragment_members, Bool.and_eq_true] at h
    simp only [sort_loop, List.mem_cons] at hm
    rcases hm with rfl | hm
    · exact sort_member_value_in_fragment v h.1
    · exact sort_loop_in_fragment rest h.2 m hm
end

/-! ## Canonicalization only reorders; when it is idempotent -/

end caching
